import Mathlib

/-!
Shallow embedding of `src/turf-path.ts` (the `LinestringPathFinder` class and
its helpers) and proofs about the claims of the specification.

Modelling conventions, used throughout:

* JS numbers are modelled by `ℚ`; the value `Infinity` is modelled by `⊤` in
  `WithTop ℚ` at the places where the source stores or compares `Infinity`.
* A coordinate (`number[]` of length 2) is a pair `ℚ × ℚ`.
* `coordToKey` builds the string key from a coordinate pair; JS number
  printing is injective and `findShortestPath` parses keys back with
  `split(',').map(Number)`, an exact round trip, so node keys are in
  bijection with coordinate pairs and are modelled by the pairs themselves
  (`coordToKey` is the identity of the model).
* A JS `Map` is an insertion-ordered dictionary with unique keys; it is
  modelled by an association list: `get` returns the value of the first
  matching entry, `set` updates the value in place when the key is present
  and appends a fresh entry otherwise.
* The wall clock consulted by `isTimedOut()` is external state; it is
  modelled by an oracle `ℕ → Bool` giving the result of each successive
  `isTimedOut()` call, together with a counter of polls made so far.
* The geometric primitives imported from `@turf/*` (`distance`,
  `nearestPointOnLine`, `pointToLineDistance`, `lineIntersect`) and the
  calibration helper `calculateDistanceAlongRiver` (whose body only
  composes such primitives) are external collaborators per the spec; they
  are parameters of the embedded functions.  The calibration helper may
  throw inside the turf library, hence it returns `Except Unit ℚ`.
-/

unseal Rat.add Rat.sub Rat.mul

namespace TurfPath

/-- A coordinate: a longitude/latitude pair, JS floats modelled by `ℚ`. -/
abbrev Coord : Type := ℚ × ℚ

/-- Graph node identity: `coordToKey` is injective and round-trips, so a node
key is modelled by the coordinate pair it prints. -/
abbrev Node : Type := Coord

/-- `type Edge = { target: Node; weight: number }`. -/
structure Edge where
  target : Node
  weight : ℚ
deriving DecidableEq, Repr

/-- `type Graph = Map<Node, Edge[]>`, as an insertion-ordered association list. -/
abbrev Graph : Type := List (Node × List Edge)

/-- A polyline: the coordinate list of a GeoJSON LineString. -/
abbrev Line : Type := List Coord

/-- Default coordinate used only to satisfy `getD`; every access is guarded
by an index bound. -/
def c0 : Coord := ((0 : ℚ), (0 : ℚ))

/-- JS `Map.get`: value of the first entry with the given key. -/
def findV {κ α : Type} [DecidableEq κ] : List (κ × α) → κ → Option α
  | [], _ => none
  | e :: t, k => if e.1 = k then some e.2 else findV t k

/-- JS `Map.set`: replace the value of the first entry with the key, keeping
its position, or append a fresh entry at the end. -/
def setV {κ α : Type} [DecidableEq κ] : List (κ × α) → κ → α → List (κ × α)
  | [], k, v => [(k, v)]
  | e :: t, k, v => if e.1 = k then (k, v) :: t else e :: setV t k v

/-- `areCoordsEqual`: exact componentwise equality of coordinates (the source
compares both float components with `===`; `ℚ` equality models this). -/
def areCoordsEqual (a b : Coord) : Bool := a = b

/-- The body of the scan loop of `insertPointIntoLineString`: skip segments
with equal endpoints, otherwise keep the strictly closest segment seen so
far (first index wins ties).  State: `(closestSegmentIndex, closestDistance)`
with `-1` modelled by `none` and the initial `Infinity` by `⊤`. -/
def scanStep (pld : Coord → Coord → Coord → ℚ) (p : Coord) (cs : Line)
    (st : Option ℕ × WithTop ℚ) (i : ℕ) : Option ℕ × WithTop ℚ :=
  if areCoordsEqual (cs.getD i c0) (cs.getD (i + 1) c0) then st
  else
    let d : ℚ := pld p (cs.getD i c0) (cs.getD (i + 1) c0)
    if (d : WithTop ℚ) < st.2 then (some i, (d : WithTop ℚ)) else st

/-- The scan loop of `insertPointIntoLineString` over `i = 0 .. len-2`. -/
def closestSegScan (pld : Coord → Coord → Coord → ℚ) (p : Coord) (cs : Line) :
    Option ℕ × WithTop ℚ :=
  (List.range (cs.length - 1)).foldl (scanStep pld p cs) (none, ⊤)

/-- `insertPointIntoLineString(line, newPoint)`: find the closest
non-degenerate segment and insert the point right after its first vertex;
report failure when no such segment exists.  `pld` is the external
`pointToLineDistance(point(newPoint), segment)` primitive. -/
def insertPointIntoLineString (pld : Coord → Coord → Coord → ℚ)
    (line : Line) (p : Coord) : Option Line × Bool :=
  match (closestSegScan pld p line).1 with
  | none => (none, false)
  | some i => (some (line.take (i + 1) ++ p :: line.drop (i + 1)), true)

/-- Whether segment `i` of `cs` is non-degenerate (not skipped by the scan). -/
def segValid (cs : Line) (i : ℕ) : Prop := cs.getD i c0 ≠ cs.getD (i + 1) c0

instance (cs : Line) (i : ℕ) : Decidable (segValid cs i) := by
  unfold segValid; infer_instance

/-- Distance from `p` to segment `i` of `cs`, via the external primitive. -/
def segDist (pld : Coord → Coord → Coord → ℚ) (p : Coord) (cs : Line) (i : ℕ) : ℚ :=
  pld p (cs.getD i c0) (cs.getD (i + 1) c0)

/-- Invariant of the scan loop after the first `n` indices were processed. -/
def ScanInv (pld : Coord → Coord → Coord → ℚ) (p : Coord) (cs : Line)
    (n : ℕ) (st : Option ℕ × WithTop ℚ) : Prop :=
  (st = (none, ⊤) ∧ ∀ i < n, ¬segValid cs i) ∨
  (∃ j, st = (some j, ((segDist pld p cs j : ℚ) : WithTop ℚ)) ∧ j < n ∧ segValid cs j ∧
    (∀ i < n, segValid cs i → segDist pld p cs j ≤ segDist pld p cs i) ∧
    (∀ i < j, segValid cs i → segDist pld p cs j < segDist pld p cs i))

/-- Total length of a polyline: the sum of the `dist` of consecutive vertices. -/
def totalLength (dist : Coord → Coord → ℚ) : Line → ℚ
  | [] => 0
  | [_] => 0
  | a :: b :: t => dist a b + totalLength dist (b :: t)

/-- C6 counterexample input line. -/
def presentLine : Line := [((0 : ℚ), (0 : ℚ)), ((1 : ℚ), (0 : ℚ))]

/-- Executable absolute value on `ℚ` (kernel-reducible, unlike `|·|`). -/
def rabs (x : ℚ) : ℚ := if 0 ≤ x then x else -x

/-- Taxicab distance: a concrete executable instance for the external
`distance` primitive, satisfying the metric facts the results depend on. -/
def taxiDist (a b : Coord) : ℚ := rabs (a.1 - b.1) + rabs (a.2 - b.2)

/-- Concrete executable instance for `pointToLineDistance`: the triangle
excess of the point over the segment, zero exactly on degenerate triangles. -/
def taxiPld (p a b : Coord) : ℚ := taxiDist a p + taxiDist p b - taxiDist a b

/-- `coordToKey`: the JS key string is in bijection with the coordinate pair
(the comment block at the top of the file); the model uses the pair itself. -/
def coordToKey (c : Coord) : Node := c

/-- One splice inside `getIntersections`: look up the refined copy of a line
by index, insert the intersection point, store it back when `success` and
`updatedLine` both hold. -/
def spliceIntoMapLine (pld : Coord → Coord → Coord → ℚ)
    (m : List (ℕ × Line)) (idx : ℕ) (p : Coord) : List (ℕ × Line) :=
  match findV m idx with
  | none => m
  | some l =>
      match insertPointIntoLineString pld l p with
      | (some l2, true) => setV m idx l2
      | _ => m

/-- Splice one intersection point into both refined lines (`i` first, then
`j`, each against the map updated so far). -/
def processIntersection (pld : Coord → Coord → Coord → ℚ) (i j : ℕ)
    (m : List (ℕ × Line)) (p : Coord) : List (ℕ × Line) :=
  spliceIntoMapLine pld (spliceIntoMapLine pld m i p) j p

/-- `if (!newLinestrings.has(k)) newLinestrings.set(k, lines[k])`. -/
def ensureKey (m : List (ℕ × Line)) (idx : ℕ) (l : Line) : List (ℕ × Line) :=
  match findV m idx with
  | none => setV m idx l
  | some _ => m

/-- Body of the inner pair loop of `getIntersections` for the pair `(i, j)`:
the (always true for `j > i`) `i !== j` guard, the two `ensureKey`s, and the
splicing of every point of `lineIntersect(lines[i], lines[j])` (computed on
the original lines) into the refined copies. -/
def interBody (li : Line → Line → List Coord) (pld : Coord → Coord → Coord → ℚ)
    (orig : List Line) (i j : ℕ) (m : List (ℕ × Line)) : List (ℕ × Line) :=
  if i = j then m
  else
    let m1 := ensureKey m i (orig.getD i [])
    let m2 := ensureKey m1 j (orig.getD j [])
    (li (orig.getD i []) (orig.getD j [])).foldl (processIntersection pld i j) m2

/-- Inner `j` loop of `getIntersections`, with its timeout poll: the poll is
made only when `i % 5 = 0` (the `&&` short-circuits) and a firing poll
aborts the whole resolution (`return []`, modelled by `none`). -/
def interInner (li : Line → Line → List Coord) (pld : Coord → Coord → Coord → ℚ)
    (oracle : ℕ → Bool) (orig : List Line) (i : ℕ) :
    List ℕ → List (ℕ × Line) → ℕ → Option (List (ℕ × Line)) × ℕ
  | [], m, pc => (some m, pc)
  | j :: js, m, pc =>
      if i % 5 = 0 then
        if oracle pc then (none, pc + 1)
        else interInner li pld oracle orig i js (interBody li pld orig i j m) (pc + 1)
      else interInner li pld oracle orig i js (interBody li pld orig i j m) pc

/-- Outer `i` loop of `getIntersections`, with its own `i % 5 = 0` poll. -/
def interOuter (li : Line → Line → List Coord) (pld : Coord → Coord → Coord → ℚ)
    (oracle : ℕ → Bool) (orig : List Line) :
    List ℕ → List (ℕ × Line) → ℕ → Option (List (ℕ × Line)) × ℕ
  | [], m, pc => (some m, pc)
  | i :: is, m, pc =>
      if i % 5 = 0 then
        if oracle pc then (none, pc + 1)
        else
          match interInner li pld oracle orig i
              (List.range' (i + 1) (orig.length - (i + 1))) m (pc + 1) with
          | (none, pc2) => (none, pc2)
          | (some m2, pc2) => interOuter li pld oracle orig is m2 pc2
      else
        match interInner li pld oracle orig i
            (List.range' (i + 1) (orig.length - (i + 1))) m pc with
        | (none, pc2) => (none, pc2)
        | (some m2, pc2) => interOuter li pld oracle orig is m2 pc2

/-- `getIntersections(linestrings)`: refine every pair of lines by their
intersection points; a firing timeout poll yields the empty list.  Returns
the refined lines (the map values in insertion order) and the updated poll
counter. -/
def getIntersections (li : Line → Line → List Coord) (pld : Coord → Coord → Coord → ℚ)
    (oracle : ℕ → Bool) (lines : List Line) (pc : ℕ) : List Line × ℕ :=
  match interOuter li pld oracle lines (List.range lines.length) [] pc with
  | (none, pc2) => ([], pc2)
  | (some m, pc2) => (m.map Prod.snd, pc2)

/-- `if (!graph.has(key)) graph.set(key, []); graph.get(key)?.push(e)`. -/
def pushEdge (g : Graph) (k : Node) (e : Edge) : Graph :=
  let g1 := match findV g k with
    | none => setV g k []
    | some _ => g
  match findV g1 k with
  | some es => setV g1 k (es ++ [e])
  | none => g1

/-- The inner `j` loop of the graph-population step of `buildNetwork`: each
coordinate is linked to its previous and next neighbour on the line, with
the external `turfDistance` as weight. -/
def addCoords (dist : Coord → Coord → ℚ) : Graph → Option Coord → List Coord → Graph
  | g, _, [] => g
  | g, prev, c :: rest =>
      let g1 := match prev with
        | some p => pushEdge g (coordToKey c) ⟨coordToKey p, dist c p⟩
        | none => g
      let g2 := match rest with
        | next :: _ => pushEdge g1 (coordToKey c) ⟨coordToKey next, dist c next⟩
        | [] => g1
      addCoords dist g2 (some c) rest

/-- The outer loop of the graph-population step of `buildNetwork`, with its
`i % 5 = 0` timeout poll; a firing poll returns a fresh empty graph. -/
def assembleLoop (dist : Coord → Coord → ℚ) (oracle : ℕ → Bool) :
    List Line → ℕ → Graph → ℕ → Graph × ℕ
  | [], _, g, pc => (g, pc)
  | l :: ls, i, g, pc =>
      if i % 5 = 0 then
        if oracle pc then ([], pc + 1)
        else assembleLoop dist oracle ls (i + 1) (addCoords dist g none l) (pc + 1)
      else assembleLoop dist oracle ls (i + 1) (addCoords dist g none l) pc

/-- `buildNetwork(linestrings)`: empty graph when the too-far flag is set,
otherwise resolve intersections and link every vertex of every refined line
to its immediate neighbours. -/
def buildNetwork (li : Line → Line → List Coord) (pld : Coord → Coord → Coord → ℚ)
    (dist : Coord → Coord → ℚ) (tooFar : Bool) (oracle : ℕ → Bool)
    (lines : List Line) (pc : ℕ) : Graph × ℕ :=
  if tooFar then ([], pc)
  else
    let fp := getIntersections li pld oracle lines pc
    assembleLoop dist oracle fp.1 0 [] fp.2

/-- The edge list stored under a node (`graph.get(k)`, `[]` when absent). -/
def edgesOf (g : Graph) (k : Node) : List Edge := (findV g k).getD []

/-- Vertices `a` and `b` sit at consecutive positions (in this order) on `l`. -/
def Adjacent (l : Line) (a b : Coord) : Prop :=
  ∃ i, i + 1 < l.length ∧ l.getD i c0 = a ∧ l.getD (i + 1) c0 = b

/-- The `prev` argument prepended to the remaining coordinates: the虚 virtual
part of the line the recursion still sees. -/
def withPrev (prev : Option Coord) (cs : Line) : Line :=
  match prev with
  | some p => p :: cs
  | none => cs

/-- C7 counterexample inputs: a polyline with a repeated consecutive vertex
(plus a second unrelated polyline so the pair loop runs), and a
`lineIntersect` instance reporting no crossings. -/
def selfLoopLines : List Line :=
  [[((0 : ℚ), (0 : ℚ)), ((0 : ℚ), (0 : ℚ)), ((1 : ℚ), (0 : ℚ))],
   [((2 : ℚ), (3 : ℚ)), ((4 : ℚ), (5 : ℚ))]]

/-- A concrete `lineIntersect` collaborator reporting no crossing points. -/
def noInter : Line → Line → List Coord := fun _ _ => []

/-- JS falsy coercion `x || Infinity` applied to `distances.get(...)`: both
`undefined` (key absent) and the number `0` are falsy and map to `Infinity`. -/
def jsOrInfinity (o : Option (WithTop ℚ)) : WithTop ℚ :=
  match o with
  | none => ⊤
  | some d => if d = 0 then ⊤ else d

/-- JS falsy coercion `predecessors.get(step) || null`: `undefined` and
`null` map to `null`; node keys are never the empty string, so no other
falsy value can occur. -/
def jsOrNull (o : Option (Option Node)) : Option Node :=
  match o with
  | none => none
  | some x => x

/-- The mutable local state of `dijkstra`'s main loop. -/
structure DState where
  dist : List (Node × WithTop ℚ)
  pred : List (Node × Option Node)
  visited : List Node
  pq : List (Node × ℚ)

/-- Default priority-queue entry, only to satisfy `getD`; all accesses are
within bounds. -/
def pqDefault : Node × ℚ := (c0, 0)

/-- The linear scan for the index of the minimum-priority entry
(`minIndex`), starting at 0 and moving only on strictly smaller priorities
(the first minimum wins). -/
def minIdxFold (pq : List (Node × ℚ)) : ℕ :=
  (List.range' 1 (pq.length - 1)).foldl
    (fun best i => if (pq.getD i pqDefault).2 < (pq.getD best pqDefault).2 then i else best) 0

/-- The swap of `pq[0]` with `pq[minIndex]` followed by `pq.shift()`:
returns the extracted entry and the remaining queue (the old head now sits
at the position the minimum came from). -/
def extractMin (pq : List (Node × ℚ)) : (Node × ℚ) × List (Node × ℚ) :=
  let m := minIdxFold pq
  (pq.getD m pqDefault, (pq.set m (pq.headD pqDefault)).drop 1)

/-- The relaxation loop over the neighbours of the dequeued node: skip
visited neighbours, compare against `distances.get(neighbor) || Infinity`,
and on improvement update distance and predecessor and push the entry. -/
def relaxEdges (cur : Node) (cd : ℚ) (visited : List Node) :
    List Edge →
      List (Node × WithTop ℚ) × List (Node × Option Node) × List (Node × ℚ) →
      List (Node × WithTop ℚ) × List (Node × Option Node) × List (Node × ℚ)
  | [], st => st
  | e :: es, st =>
      if e.target ∈ visited then relaxEdges cur cd visited es st
      else
        let nd := cd + e.weight
        if (nd : WithTop ℚ) < jsOrInfinity (findV st.1 e.target) then
          relaxEdges cur cd visited es
            (setV st.1 e.target ((nd : ℚ) : WithTop ℚ),
             setV st.2.1 e.target (some cur),
             st.2.2 ++ [(e.target, nd)])
        else relaxEdges cur cd visited es st

/-- The `while (pq.length > 0)` loop of `dijkstra`, with a fuel argument
used only to express the recursion (the bound `dijkstraFuel` is proved
sufficient below, so the `none` out-of-fuel result never arises with it).
The loop exits with the final state either when the queue is exhausted or
when the target is dequeued unvisited (the `break`). -/
def dloop (g : Graph) (target : Node) : ℕ → DState → Option DState
  | 0, st =>
      match st.pq with
      | [] => some st
      | _ :: _ => none
  | fuel + 1, st =>
      match st.pq with
      | [] => some st
      | _ :: _ =>
          let er := extractMin st.pq
          if er.1.1 ∈ st.visited then
            dloop g target fuel { st with pq := er.2 }
          else
            if er.1.1 = target then
              some { st with visited := er.1.1 :: st.visited, pq := er.2 }
            else
              let r := relaxEdges er.1.1 er.1.2 (er.1.1 :: st.visited)
                (edgesOf g er.1.1) (st.dist, st.pred, er.2)
              dloop g target fuel
                ⟨r.1, r.2.1, er.1.1 :: st.visited, r.2.2⟩

/-- The path-reconstruction loop (`while (step) { path.unshift(step); step =
predecessors.get(step) || null }`), fueled; the bound used in `dijkstra` is
proved sufficient, predecessor chains being acyclic. -/
def reconstructLoop (pred : List (Node × Option Node)) :
    ℕ → Option Node → List Node → Option (List Node)
  | fuel, step, acc =>
    match step, fuel with
    | none, _ => some acc
    | some _, 0 => none
    | some v, fuel + 1 => reconstructLoop pred fuel (jsOrNull (findV pred v)) (v :: acc)

/-- Total size of a graph: one unit per key plus one per stored edge. -/
def graphWeight (g : Graph) : ℕ := (g.map (fun e => e.2.length + 1)).sum

/-- Fuel sufficient for `dloop`: each iteration removes a queue entry, and
entries are only pushed when a key is first visited. -/
def dijkstraFuel (g : Graph) : ℕ := 2 * graphWeight g + 1

/-- `for (const node of graph.keys()) distances.set(node, Infinity)`
followed by `distances.set(source, 0)`. -/
def initDist (g : Graph) (s : Node) : List (Node × WithTop ℚ) :=
  setV (g.foldl (fun m e => setV m e.1 (⊤ : WithTop ℚ)) []) s 0

/-- `for (const node of graph.keys()) predecessors.set(node, null)`. -/
def initPred (g : Graph) : List (Node × Option Node) :=
  g.foldl (fun m e => setV m e.1 (none : Option Node)) []

/-- `dijkstra(graph, source, target)`: the too-far short-circuit, the main
loop, the backwards path reconstruction, the `path[0] !== source`
unreachability test, and the final `distances.get(target) || Infinity`. -/
def dijkstra (tooFar : Bool) (g : Graph) (source target : Node) :
    List Node × WithTop ℚ :=
  if tooFar then ([], ⊤)
  else
    match dloop g target (dijkstraFuel g)
        ⟨initDist g source, initPred g, [], [(source, 0)]⟩ with
    | none => ([], ⊤)
    | some fin =>
        match reconstructLoop fin.pred (fin.dist.length + 1) (some target) [] with
        | none => ([], ⊤)
        | some path =>
            if path.head? = some source then
              (path, jsOrInfinity (findV fin.dist target))
            else ([], ⊤)

/-- A walk through the graph: the vertex list `p` leads from `a` to `b`
following stored edges, whose weights sum to `w`. -/
inductive IsWalk (g : Graph) : List Node → Node → Node → ℚ → Prop
  | single (a : Node) : IsWalk g [a] a a 0
  | step {a b t : Node} {rest : List Node} {w wr : ℚ} :
      (⟨b, w⟩ : Edge) ∈ edgesOf g a → IsWalk g (b :: rest) b t wr →
      IsWalk g (a :: b :: rest) a t (w + wr)

/-- `a` reaches `b` in `g` through a walk of total weight `w`. -/
def Reach (g : Graph) (a b : Node) (w : ℚ) : Prop := ∃ p, IsWalk g p a b w

/-- `d` is the least total weight over all walks from `a` to `b` in `g`. -/
def IsShortest (g : Graph) (a b : Node) (d : ℚ) : Prop :=
  Reach g a b d ∧ ∀ w, Reach g a b w → d ≤ w

/-- All stored edge weights are strictly positive. -/
def PosWeights (g : Graph) : Prop := ∀ e ∈ g, ∀ tw ∈ e.2, 0 < tw.weight

/-- Facts maintained about the distance and predecessor maps throughout the
loop (they also hold at the `break` exit, where the frontier facts do not). -/
structure CoreInv (g : Graph) (s : Node) (dist : List (Node × WithTop ℚ))
    (pred : List (Node × Option Node)) (visited : List Node) : Prop where
  dist_nodup : (dist.map Prod.fst).Nodup
  src_dist : findV dist s = some 0
  dshape : ∀ v d, findV dist v = some d →
    d = ⊤ ∨ (v = s ∧ d = 0) ∨ ∃ q : ℚ, d = (q : WithTop ℚ) ∧ 0 < q ∧ Reach g s v q
  pred_ok : ∀ v u, findV pred v = some (some u) →
    ∃ w q du : ℚ, (⟨v, w⟩ : Edge) ∈ edgesOf g u ∧
      findV dist v = some ((q : ℚ) : WithTop ℚ) ∧
      findV dist u = some ((du : ℚ) : WithTop ℚ) ∧ q = du + w ∧ u ∈ visited
  pred_fin : ∀ v (q : ℚ), findV dist v = some ((q : ℚ) : WithTop ℚ) → v ≠ s →
    ∃ u, findV pred v = some (some u)
  pred_src : ∀ u, findV pred s ≠ some (some u)

/-- The full loop invariant of `dloop`, holding at the head of every
iteration. -/
structure LoopInv (g : Graph) (s t : Node) (st : DState) : Prop where
  core : CoreInv g s st.dist st.pred st.visited
  src_vis : s ∈ st.visited
  t_novis : t ∉ st.visited
  pq_reach : ∀ e ∈ st.pq, Reach g s e.1 e.2
  pq_dist : ∀ e ∈ st.pq, e.1 ∉ st.visited →
    ∃ q : ℚ, findV st.dist e.1 = some ((q : ℚ) : WithTop ℚ) ∧ q ≤ e.2
  dist_pq : ∀ v (q : ℚ), v ∉ st.visited → v ≠ s →
    findV st.dist v = some ((q : ℚ) : WithTop ℚ) → (v, q) ∈ st.pq
  vis_short : ∀ v ∈ st.visited, ∃ q : ℚ,
    findV st.dist v = some ((q : ℚ) : WithTop ℚ) ∧ IsShortest g s v q
  frontier : ∀ u ∈ st.visited, ∀ tw ∈ edgesOf g u, tw.target ∉ st.visited →
    ∃ q du : ℚ, findV st.dist tw.target = some ((q : ℚ) : WithTop ℚ) ∧
      findV st.dist u = some ((du : ℚ) : WithTop ℚ) ∧ q ≤ du + tw.weight

/-- The invariant maintained across the neighbour-relaxation loop body: the
node cur has just been dequeued with priority cd (its shortest distance),
rem is the suffix of its adjacency list still to process, and V is the
visited list from before cur was added. -/
structure RInv (g : Graph) (s cur : Node) (cd : ℚ) (V : List Node) (rem : List Edge)
    (dist : List (Node × WithTop ℚ)) (pred : List (Node × Option Node))
    (pq : List (Node × ℚ)) : Prop where
  core : CoreInv g s dist pred (cur :: V)
  src_vis : s ∈ cur :: V
  rem_sub : ∀ e ∈ rem, e ∈ edgesOf g cur
  cur_dist : findV dist cur = some ((cd : ℚ) : WithTop ℚ)
  cur_short : IsShortest g s cur cd
  pq_reach : ∀ e ∈ pq, Reach g s e.1 e.2
  pq_dist : ∀ e ∈ pq, e.1 ∉ cur :: V →
    ∃ q : ℚ, findV dist e.1 = some ((q : ℚ) : WithTop ℚ) ∧ q ≤ e.2
  dist_pq : ∀ v (q : ℚ), v ∉ cur :: V → v ≠ s →
    findV dist v = some ((q : ℚ) : WithTop ℚ) → (v, q) ∈ pq
  vis_short : ∀ v ∈ cur :: V, ∃ q : ℚ,
    findV dist v = some ((q : ℚ) : WithTop ℚ) ∧ IsShortest g s v q
  frontier : ∀ u ∈ cur :: V, ∀ tw ∈ edgesOf g u, tw.target ∉ cur :: V →
    (u = cur → tw ∉ rem) →
    ∃ q du : ℚ, findV dist tw.target = some ((q : ℚ) : WithTop ℚ) ∧
      findV dist u = some ((du : ℚ) : WithTop ℚ) ∧ q ≤ du + tw.weight

/-- Total size of the part of the graph whose keys are not yet visited;
used only in the fuel-sufficiency argument. -/
def unvisitedWeight : Graph → List Node → ℕ
  | [], _ => 0
  | e :: tl, visited =>
      (if e.1 ∈ visited then 0 else e.2.length + 1) + unvisitedWeight tl visited

/-- Termination measure of the main loop: queue length plus twice the
unvisited graph weight; every iteration strictly decreases it. -/
def mu (g : Graph) (st : DState) : ℕ :=
  st.pq.length + 2 * unvisitedWeight g st.visited

/-- Number of distance entries whose stored value is strictly below a given
rational; the measure that makes predecessor chains well founded. -/
def countBelow (dist : List (Node × WithTop ℚ)) (x : ℚ) : ℕ :=
  dist.countP (fun e => decide (e.2 < ((x : ℚ) : WithTop ℚ)))

/-- Two-node graph with unit-weight edges both ways, used as the concrete
instance for the shortest-path theorems. -/
def cexG : Graph :=
  [(((0 : ℚ), (0 : ℚ)), [⟨((1 : ℚ), (0 : ℚ)), 1⟩]),
   (((1 : ℚ), (0 : ℚ)), [⟨((0 : ℚ), (0 : ℚ)), 1⟩])]

/-- Two-node graph with zero-weight edges both ways: weights are
non-negative, so the original claim covers it. -/
def cexGZ : Graph :=
  [(((0 : ℚ), (0 : ℚ)), [⟨((1 : ℚ), (0 : ℚ)), 0⟩]),
   (((1 : ℚ), (0 : ℚ)), [⟨((0 : ℚ), (0 : ℚ)), 0⟩])]

/-- The error enumeration of `pathErrors`. -/
inductive PathErrorKind where
  | TimedOut
  | TooFarFromRivers
  | NoPath
  | Unknown
  deriving DecidableEq, Repr

/-- The record returned by `findShortestPath` (`PathResult`): the geometry
is kept as its coordinate list, the distance as a rational. -/
structure PathResult where
  path : Line
  distance : ℚ
  success : Bool
  error : Option PathErrorKind
  deriving DecidableEq, Repr

/-- The fields of the path finder consulted by `findShortestPath`
(`this.network` and `this.isTooFarFromRivers`). -/
structure PF where
  network : Graph
  isTooFarFromRivers : Bool
  deriving DecidableEq, Repr

/-- The mutable `InitialPointInfo` record of the constructor: `lineIndex`
starts at `-1`, `pointOnClosestLine` at `null`, `closestLineDistance` at
`Infinity`. -/
structure PointInfo where
  lineIndex : Int
  pointOnClosestLine : Option Coord
  closestLineDistance : WithTop ℚ
  deriving DecidableEq, Repr

def initInfo : PointInfo := ⟨-1, none, ⊤⟩

/-- An input feature: a LineString or a MultiLineString (`flattenEach`
visits its member lines in order). -/
inductive Feat where
  | line (l : Line)
  | multi (ls : List Line)
  deriving DecidableEq, Repr

/-- The lines a single feature contributes once flattened. -/
def featLines : Feat → List Line
  | .line l => [l]
  | .multi ls => ls

/-- All candidate polylines of the input, in visit order. -/
def flatFeats (fs : List Feat) : List Line :=
  fs.foldr (fun f acc => featLines f ++ acc) []

/-- `processLineString`: compare the nearest point of the line to both
query points against the running minima, recording the index the line is
about to be pushed at (`linestrings.length`), then push the line. -/
def processLine (npl : Line → Coord → Coord) (dist : Coord → Coord → ℚ)
    (start stop : Coord) (acc : PointInfo × PointInfo × List Line) (l : Line) :
    PointInfo × PointInfo × List Line :=
  let ps := npl l start
  let ds := dist ps start
  let si := if ((ds : ℚ) : WithTop ℚ) < acc.1.closestLineDistance then
      (⟨(acc.2.2.length : Int), some ps, ((ds : ℚ) : WithTop ℚ)⟩ : PointInfo)
    else acc.1
  let pe := npl l stop
  let de := dist pe stop
  let ei := if ((de : ℚ) : WithTop ℚ) < acc.2.1.closestLineDistance then
      (⟨(acc.2.2.length : Int), some pe, ((de : ℚ) : WithTop ℚ)⟩ : PointInfo)
    else acc.2.1
  (si, ei, acc.2.2 ++ [l])

/-- The `allFeatures.forEach` loop: one timeout poll per feature (a firing
poll skips that feature and moves on — the early `return` only leaves the
callback), then the flattened member lines are processed in order. -/
def processFeats (npl : Line → Coord → Coord) (dist : Coord → Coord → ℚ)
    (start stop : Coord) (oracle : ℕ → Bool) :
    List Feat → (PointInfo × PointInfo × List Line) → ℕ →
      (PointInfo × PointInfo × List Line) × ℕ
  | [], acc, pc => (acc, pc)
  | f :: fs, acc, pc =>
      if oracle pc then processFeats npl dist start stop oracle fs acc (pc + 1)
      else processFeats npl dist start stop oracle fs
        ((featLines f).foldl (processLine npl dist start stop) acc) (pc + 1)

/-- One of the two splice blocks after the gate: when the recorded index is
not `-1` and a nearest point exists, insert it into the recorded line and
store the update back when `updatedLine` is non-null. -/
def spliceAt (pld : Coord → Coord → Coord → ℚ) (ls : List Line) (idx : Int)
    (po : Option Coord) : List Line :=
  match po with
  | none => ls
  | some p =>
      if idx = -1 then ls
      else
        match insertPointIntoLineString pld (ls.getD idx.toNat []) p with
        | (some l2, _) => ls.set idx.toNat l2
        | (none, _) => ls

/-- The constructor of `LinestringPathFinder`: scan all features for the
lines closest to the query points, gate on the allowed distance (40),
splice the two nearest points in, append the two connector lines, and
build the network.  Returns the relevant finder state and the final poll
counter. -/
def mkPathFinder (npl : Line → Coord → Coord) (dist : Coord → Coord → ℚ)
    (li : Line → Line → List Coord) (pld : Coord → Coord → Coord → ℚ)
    (oracle : ℕ → Bool) (feats : List Feat) (start stop : Coord) : PF × ℕ :=
  let r := processFeats npl dist start stop oracle feats (initInfo, initInfo, []) 0
  let si := r.1.1
  let ei := r.1.2.1
  if (40 : WithTop ℚ) < si.closestLineDistance ∨
      (40 : WithTop ℚ) < ei.closestLineDistance then
    (⟨[], true⟩, r.2)
  else
    let ls1 := spliceAt pld r.1.2.2 si.lineIndex si.pointOnClosestLine
    let ls2 := spliceAt pld ls1 ei.lineIndex ei.pointOnClosestLine
    let ls3 := match si.pointOnClosestLine, ei.pointOnClosestLine with
      | some ps, some pe => ls2 ++ [[ps, start], [pe, stop]]
      | _, _ => ls2
    let bn := buildNetwork li pld dist false oracle ls3 r.2
    (⟨bn.1, false⟩, bn.2)

/-- The `lineString(...)` constructor of turf throws when its argument has
fewer than two positions. -/
def lineStringE (l : Line) : Except Unit Line :=
  if l.length < 2 then Except.error () else Except.ok l

/-- The body of the `try` block of `findShortestPath`: the query-time
timeout check, the too-far check, the dijkstra call (node keys round-trip
through `coordToKey`, so `formattedPath` is the returned vertex list
itself), the `distance === Infinity` test, the `lineString` construction
of the result geometry, and the external `calculateDistanceAlongRiver`
(which may throw, hence `Except`). -/
def findShortestPathBody (pf : PF) (dist : Coord → Coord → ℚ)
    (calib : Coord → Coord → Line → Except Unit ℚ) (oracle : ℕ → Bool) (pc : ℕ)
    (start stop : Coord) : Except Unit PathResult :=
  if oracle pc then
    Except.ok ⟨[start, stop], dist start stop, false, some .TimedOut⟩
  else if pf.isTooFarFromRivers then
    Except.ok ⟨[start, stop], dist start stop, false, some .TooFarFromRivers⟩
  else
    let r := dijkstra pf.isTooFarFromRivers pf.network (coordToKey start) (coordToKey stop)
    if r.2 = ⊤ then
      Except.ok ⟨[start, stop], dist start stop, false, some .NoPath⟩
    else
      match lineStringE r.1 with
      | Except.error e => Except.error e
      | Except.ok lsp =>
          match calib start stop lsp with
          | Except.error e => Except.error e
          | Except.ok td => Except.ok ⟨lsp, td, true, none⟩

/-- `findShortestPath`: the `try`/`catch` wrapper — any exception from the
body is converted into the `Unknown` failure record with the straight-line
fallback. -/
def findShortestPath (pf : PF) (dist : Coord → Coord → ℚ)
    (calib : Coord → Coord → Line → Except Unit ℚ) (oracle : ℕ → Bool) (pc : ℕ)
    (start stop : Coord) : PathResult :=
  match findShortestPathBody pf dist calib oracle pc start stop with
  | Except.ok r => r
  | Except.error _ => ⟨[start, stop], dist start stop, false, some .Unknown⟩

/-- The running minima of the feature scan are either still Infinity or
equal to the nearest-point distance of one of the candidate lines. -/
def ClosestInv (npl : Line → Coord → Coord) (dist : Coord → Coord → ℚ)
    (start stop : Coord) (L : List Line)
    (acc : PointInfo × PointInfo × List Line) : Prop :=
  (acc.1.closestLineDistance = ⊤ ∨
    ∃ l ∈ L, acc.1.closestLineDistance = ((dist (npl l start) start : ℚ) : WithTop ℚ)) ∧
  (acc.2.1.closestLineDistance = ⊤ ∨
    ∃ l ∈ L, acc.2.1.closestLineDistance = ((dist (npl l stop) stop : ℚ) : WithTop ℚ))

/-- Nearest-point oracle that projects onto the first vertex of the line. -/
def nplHead : Line → Coord → Coord := fun l _ => l.headD c0

/-- Nearest-point oracle that returns the query point itself (distance 0). -/
def nplSelf : Line → Coord → Coord := fun _ p => p

/-- A distance-along-river resolver that always succeeds with 0. -/
def calibOK : Coord → Coord → Line → Except Unit ℚ := fun _ _ _ => Except.ok 0

/-- A distance-along-river resolver that always throws. -/
def calibErr : Coord → Coord → Line → Except Unit ℚ := fun _ _ _ => Except.error ()

/-- One feature whose line is taxicab distance 100 from the origin. -/
def farFeats : List Feat := [Feat.line [((100 : ℚ), (0 : ℚ)), ((101 : ℚ), (0 : ℚ))]]

/-- One feature through both query points. -/
def nearFeats : List Feat := [Feat.line [((0 : ℚ), (0 : ℚ)), ((1 : ℚ), (0 : ℚ))]]

/-- A clock that runs out exactly after the five construction polls of the
nearFeats scenario. -/
def orc5 : ℕ → Bool := fun k => decide (5 ≤ k)

/-- A finder state over the two-node unit graph, not too far. -/
def pfCex : PF := ⟨cexG, false⟩

/-- A two-line list (no crossings) used to instantiate the network
theorems; with a single line the pair loop of the intersection resolver
never runs, so the refined list would be empty. -/
def wLines : List Line :=
  [[((0 : ℚ), (0 : ℚ)), ((1 : ℚ), (0 : ℚ))],
   [((5 : ℚ), (7 : ℚ)), ((9 : ℚ), (7 : ℚ))]]

/-- Six one-segment lines; the intersection resolver makes seven polls on
them (six on the first outer iteration, one on the sixth). -/
def lines6 : List Line :=
  [[((0 : ℚ), (0 : ℚ)), ((1 : ℚ), (0 : ℚ))],
   [((0 : ℚ), (1 : ℚ)), ((1 : ℚ), (1 : ℚ))],
   [((0 : ℚ), (2 : ℚ)), ((1 : ℚ), (2 : ℚ))],
   [((0 : ℚ), (3 : ℚ)), ((1 : ℚ), (3 : ℚ))],
   [((0 : ℚ), (4 : ℚ)), ((1 : ℚ), (4 : ℚ))],
   [((0 : ℚ), (5 : ℚ)), ((1 : ℚ), (5 : ℚ))]]

/-- A clock that runs out exactly at the seventh poll — in the middle of
the intersection-resolution loop on `lines6`. -/
def orc6 : ℕ → Bool := fun k => decide (k = 6)

/-- A clock that runs out exactly at the third poll — on `wLines` that is
the first poll of the graph-population loop of `buildNetwork`, after the
intersection resolution completed without timing out. -/
def orcB : ℕ → Bool := fun k => decide (k = 2)

section MapLemmas

variable {κ α : Type} [DecidableEq κ]

theorem findV_setV_self (m : List (κ × α)) (k : κ) (v : α) :
    findV (setV m k v) k = some v := by
  induction m with
  | nil => simp [setV, findV]
  | cons e t ih =>
      by_cases h : e.1 = k
      · simp [setV, h, findV]
      · simp [setV, h, findV, ih]

theorem findV_setV_ne (m : List (κ × α)) (k k' : κ) (v : α) (h : k' ≠ k) :
    findV (setV m k v) k' = findV m k' := by
  induction m with
  | nil => simp [setV, findV, Ne.symm h]
  | cons e t ih =>
      by_cases he : e.1 = k
      · subst he
        simp [setV, findV, Ne.symm h]
      · rw [setV]
        rw [if_neg he]
        rw [findV, findV, ih]

theorem findV_mem {m : List (κ × α)} {k : κ} {v : α} (h : findV m k = some v) :
    (k, v) ∈ m := by
  induction m with
  | nil => simp [findV] at h
  | cons e t ih =>
      by_cases he : e.1 = k
      · rw [findV, if_pos he] at h
        have hev : e = (k, v) := by
          cases e
          simp at he h
          simp [he, h]
        rw [← hev]
        simp
      · rw [findV, if_neg he] at h
        exact List.mem_cons_of_mem _ (ih h)

theorem findV_eq_none {m : List (κ × α)} {k : κ} (h : findV m k = none) :
    ∀ v, (k, v) ∉ m := by
  induction m with
  | nil => simp
  | cons e t ih =>
      by_cases he : e.1 = k
      · rw [findV, if_pos he] at h
        simp at h
      · rw [findV, if_neg he] at h
        intro v hv
        rcases List.mem_cons.mp hv with h1 | h1
        · exact he (by rw [← h1])
        · exact ih h v h1

theorem mem_of_mem_setV {m : List (κ × α)} {k : κ} {v : α} {e : κ × α}
    (h : e ∈ setV m k v) : e = (k, v) ∨ e ∈ m := by
  induction m with
  | nil => simpa [setV] using h
  | cons f t ih =>
      by_cases hf : f.1 = k
      · simp [setV, hf] at h
        rcases h with h | h
        · exact Or.inl h
        · exact Or.inr (List.mem_cons_of_mem _ h)
      · simp [setV, hf] at h
        rcases h with h | h
        · exact Or.inr (by simp [h])
        · rcases ih h with h1 | h1
          · exact Or.inl h1
          · exact Or.inr (List.mem_cons_of_mem _ h1)

theorem keys_setV_none (m : List (κ × α)) (k : κ) (v : α) (h : findV m k = none) :
    (setV m k v).map Prod.fst = m.map Prod.fst ++ [k] := by
  induction m with
  | nil => simp [setV]
  | cons e t ih =>
      by_cases he : e.1 = k
      · rw [findV, if_pos he] at h
        simp at h
      · rw [findV, if_neg he] at h
        rw [setV, if_neg he]
        simp [ih h]

theorem keys_setV_some (m : List (κ × α)) (k : κ) (v w : α)
    (h : findV m k = some w) :
    (setV m k v).map Prod.fst = m.map Prod.fst := by
  induction m with
  | nil => simp [findV] at h
  | cons e t ih =>
      by_cases he : e.1 = k
      · rw [setV, if_pos he]
        simp [he]
      · rw [findV, if_neg he] at h
        rw [setV, if_neg he]
        simp [ih h]

theorem nodup_keys_setV {m : List (κ × α)} (k : κ) (v : α)
    (h : (m.map Prod.fst).Nodup) : ((setV m k v).map Prod.fst).Nodup := by
  cases hf : findV m k with
  | none =>
      rw [keys_setV_none m k v hf]
      rw [List.nodup_append]
      refine ⟨h, List.nodup_singleton _, ?_⟩
      intro a ha hak
      simp at hak
      rcases List.mem_map.mp ha with ⟨e, he, hek⟩
      refine (findV_eq_none hf e.2) ?_
      have he2 : e = (k, e.2) := by
        cases e
        simp at hek
        simp [hek, hak]
      rw [← he2]
      exact he
  | some w =>
      rw [keys_setV_some m k v w hf]
      exact h

theorem mem_setV_of_mem_ne {m : List (κ × α)} {k : κ} {v : α} {e : κ × α}
    (hm : e ∈ m) (hne : e.1 ≠ k) : e ∈ setV m k v := by
  induction m with
  | nil => simp at hm
  | cons f t ih =>
      by_cases hf : f.1 = k
      · simp [setV, hf]
        rcases List.mem_cons.mp hm with h1 | h1
        · exact absurd (h1 ▸ hf) hne
        · exact Or.inr h1
      · simp [setV, hf]
        rcases List.mem_cons.mp hm with h1 | h1
        · exact Or.inl h1
        · exact Or.inr (ih h1)

end MapLemmas

theorem scanStep_inv (pld : Coord → Coord → Coord → ℚ) (p : Coord) (cs : Line)
    (n : ℕ) (st : Option ℕ × WithTop ℚ) (h : ScanInv pld p cs n st) :
    ScanInv pld p cs (n + 1) (scanStep pld p cs st n) := by
  by_cases hv : segValid cs n
  · have hstep : scanStep pld p cs st n =
        if ((segDist pld p cs n : ℚ) : WithTop ℚ) < st.2 then
          (some n, ((segDist pld p cs n : ℚ) : WithTop ℚ)) else st := by
      unfold scanStep segValid at *
      simp only [areCoordsEqual] at *
      rw [if_neg (by simpa using hv)]
      rfl
    rcases h with ⟨hst, hall⟩ | ⟨j, hst, hj, hjv, hle, hlt⟩
    · rw [hstep, hst]
      right
      refine ⟨n, by simp, Nat.lt_succ_self n, hv, ?_, ?_⟩
      · intro i hi hvi
        rcases Nat.lt_succ_iff_lt_or_eq.mp hi with h1 | h1
        · exact absurd hvi (hall i h1)
        · subst h1; exact le_refl _
      · intro i hi hvi
        exact absurd hvi (hall i hi)
    · rw [hstep, hst]
      by_cases hcmp : ((segDist pld p cs n : ℚ) : WithTop ℚ) <
          ((segDist pld p cs j : ℚ) : WithTop ℚ)
      · rw [if_pos (by simpa using hcmp)]
        have hcmp' : segDist pld p cs n < segDist pld p cs j := by
          exact_mod_cast hcmp
        right
        refine ⟨n, rfl, Nat.lt_succ_self n, hv, ?_, ?_⟩
        · intro i hi hvi
          rcases Nat.lt_succ_iff_lt_or_eq.mp hi with h1 | h1
          · exact le_of_lt (lt_of_lt_of_le hcmp' (hle i h1 hvi))
          · subst h1; exact le_refl _
        · intro i hi hvi
          exact lt_of_lt_of_le hcmp' (hle i hi hvi)
      · rw [if_neg (by simpa using hcmp)]
        have hcmp' : segDist pld p cs j ≤ segDist pld p cs n := by
          have := not_lt.mp hcmp
          exact_mod_cast this
        right
        refine ⟨j, rfl, Nat.lt_succ_of_lt hj, hjv, ?_, hlt⟩
        intro i hi hvi
        rcases Nat.lt_succ_iff_lt_or_eq.mp hi with h1 | h1
        · exact hle i h1 hvi
        · subst h1; exact hcmp'
  · have hstep : scanStep pld p cs st n = st := by
      unfold scanStep segValid at *
      simp only [areCoordsEqual]
      rw [if_pos (by simpa using not_not.mp (by simpa using hv))]
    rw [hstep]
    rcases h with ⟨hst, hall⟩ | ⟨j, hst, hj, hjv, hle, hlt⟩
    · left
      refine ⟨hst, ?_⟩
      intro i hi
      rcases Nat.lt_succ_iff_lt_or_eq.mp hi with h1 | h1
      · exact hall i h1
      · subst h1; exact hv
    · right
      refine ⟨j, hst, Nat.lt_succ_of_lt hj, hjv, ?_, hlt⟩
      intro i hi hvi
      rcases Nat.lt_succ_iff_lt_or_eq.mp hi with h1 | h1
      · exact hle i h1 hvi
      · subst h1; exact absurd hvi hv

theorem closestSegScan_inv (pld : Coord → Coord → Coord → ℚ) (p : Coord) (cs : Line) :
    ScanInv pld p cs (cs.length - 1) (closestSegScan pld p cs) := by
  unfold closestSegScan
  generalize cs.length - 1 = n
  induction n with
  | zero => left; simp [List.range_zero]
  | succ n ih =>
      rw [List.range_succ, List.foldl_append]
      exact scanStep_inv pld p cs n _ ih

theorem totalLength_append (dist : Coord → Coord → ℚ) (xs : Line) (a : Coord) (ys : Line) :
    totalLength dist (xs ++ a :: ys) =
      totalLength dist (xs ++ [a]) + totalLength dist (a :: ys) := by
  induction xs with
  | nil => simp [totalLength]
  | cons x xs ih =>
      cases xs with
      | nil =>
          cases ys with
          | nil => simp [totalLength]
          | cons y ys => simp [totalLength]
      | cons y xs' =>
          have h3 : ∀ zs : Line, totalLength dist (x :: ((y :: xs') ++ zs)) =
              dist x y + totalLength dist ((y :: xs') ++ zs) := fun _ => rfl
          have h1 : (x :: y :: xs') ++ a :: ys = x :: ((y :: xs') ++ a :: ys) := rfl
          have h2 : (x :: y :: xs') ++ [a] = x :: ((y :: xs') ++ [a]) := rfl
          rw [h1, h2, h3, h3, ih]
          ring

/-- Any non-degenerate segment with an endpoint equal to a vertex of the line
exists as soon as the line holds the point and some other value. -/
theorem adj_pair_of_mem_ne (l : Line) (p : Coord) (hp : p ∈ l)
    (hq : ∃ q ∈ l, q ≠ p) :
    ∃ j, j + 1 < l.length ∧ l.getD j c0 ≠ l.getD (j + 1) c0 ∧
      (l.getD j c0 = p ∨ l.getD (j + 1) c0 = p) := by
  induction l with
  | nil => simp at hp
  | cons a t ih =>
      by_cases hap : a = p
      · cases t with
        | nil =>
            rcases hq with ⟨q, hq1, hq2⟩
            simp at hq1
            exact absurd (hq1.trans hap) hq2
        | cons b t' =>
            by_cases hbp : b = p
            · rcases hq with ⟨q, hq1, hq2⟩
              have hqt : q ∈ b :: t' := by
                rcases List.mem_cons.mp hq1 with h1 | h1
                · exact absurd (h1.trans hap) hq2
                · exact h1
              have hpbt : p ∈ b :: t' := by
                rw [← hbp]
                exact List.mem_cons_self b t'
              rcases ih hpbt ⟨q, hqt, hq2⟩ with ⟨j, hj1, hj2, hj3⟩
              exact ⟨j + 1, by simpa using hj1, by simpa using hj2, by simpa using hj3⟩
            · refine ⟨0, by simp, ?_, Or.inl (by simpa using hap)⟩
              simp
              intro h
              exact hbp (h ▸ hap)
      · have hpt : p ∈ t := by
          rcases List.mem_cons.mp hp with h1 | h1
          · exact absurd h1.symm hap
          · exact h1
        cases t with
        | nil => simp at hpt
        | cons b t' =>
            by_cases hbp : b = p
            · refine ⟨0, by simp, ?_, Or.inr (by simpa using hbp)⟩
              simp
              intro h
              exact hap (h.trans hbp)
            · rcases ih hpt ⟨b, List.mem_cons_self b t', hbp⟩ with ⟨j, hj1, hj2, hj3⟩
              exact ⟨j + 1, by simpa using hj1, by simpa using hj2, by simpa using hj3⟩

/-- C9: `insertPointIntoLineString` either fails (exactly when the polyline
has no pair of distinct consecutive vertices, in particular when it has
fewer than 2 vertices), reporting `success = false` and no updated line, or
it returns the original vertex list with the new point inserted immediately
after the first vertex of the first closest non-degenerate segment — a
prefix of the original list, then the point, then the remaining suffix, so
existing vertices are never reordered. -/
theorem insertPoint_spec (pld : Coord → Coord → Coord → ℚ) (line : Line) (p : Coord) :
    (insertPointIntoLineString pld line p = (none, false) ↔
      ∀ i, i + 1 < line.length → line.getD i c0 = line.getD (i + 1) c0) ∧
    ((insertPointIntoLineString pld line p).2 =
      (insertPointIntoLineString pld line p).1.isSome) ∧
    (∀ l', (insertPointIntoLineString pld line p).1 = some l' →
      ∃ i, i + 1 < line.length ∧
        l' = line.take (i + 1) ++ p :: line.drop (i + 1) ∧
        line.getD i c0 ≠ line.getD (i + 1) c0 ∧
        (∀ j, j + 1 < line.length → line.getD j c0 ≠ line.getD (j + 1) c0 →
          pld p (line.getD i c0) (line.getD (i + 1) c0) ≤
            pld p (line.getD j c0) (line.getD (j + 1) c0)) ∧
        (∀ j, j < i → line.getD j c0 ≠ line.getD (j + 1) c0 →
          pld p (line.getD i c0) (line.getD (i + 1) c0) <
            pld p (line.getD j c0) (line.getD (j + 1) c0))) := by
  have hinv := closestSegScan_inv pld p line
  rcases hinv with ⟨hst, hall⟩ | ⟨j, hst, hj, hjv, hle, hlt⟩
  · have hres : insertPointIntoLineString pld line p = (none, false) := by
      unfold insertPointIntoLineString
      rw [hst]
    refine ⟨⟨fun _ => ?_, fun _ => hres⟩, by rw [hres]; rfl, ?_⟩
    · intro i hi
      have := hall i (by omega)
      unfold segValid at this
      exact not_not.mp this
    · intro l' hl'
      rw [hres] at hl'
      simp at hl'
  · have hres : insertPointIntoLineString pld line p =
        (some (line.take (j + 1) ++ p :: line.drop (j + 1)), true) := by
      unfold insertPointIntoLineString
      rw [hst]
    refine ⟨⟨fun h => ?_, fun h => ?_⟩, by rw [hres]; rfl, ?_⟩
    · rw [hres] at h
      simp at h
    · exact absurd (h j (by omega)) hjv
    · intro l' hl'
      rw [hres] at hl'
      simp at hl'
      refine ⟨j, by omega, hl'.symm, hjv, ?_, ?_⟩
      · intro i hi hvi
        exact hle i (by omega) hvi
      · intro i hi hvi
        exact hlt i hi hvi

theorem rabs_eq_abs (x : ℚ) : rabs x = |x| := by
  unfold rabs
  rcases le_or_lt 0 x with h | h
  · rw [if_pos h, abs_of_nonneg h]
  · rw [if_neg (not_le.mpr h), abs_of_neg h]

theorem taxiDist_self (a : Coord) : taxiDist a a = 0 := by
  simp [taxiDist, rabs_eq_abs]

theorem taxiPld_nonneg (p a b : Coord) : 0 ≤ taxiPld p a b := by
  unfold taxiPld taxiDist
  rw [rabs_eq_abs, rabs_eq_abs, rabs_eq_abs, rabs_eq_abs, rabs_eq_abs, rabs_eq_abs]
  have h1 : |a.1 - b.1| ≤ |a.1 - p.1| + |p.1 - b.1| := abs_sub_le _ _ _
  have h2 : |a.2 - b.2| ≤ |a.2 - p.2| + |p.2 - b.2| := abs_sub_le _ _ _
  linarith

theorem taxiPld_zero_add (p a b : Coord) (h : taxiPld p a b = 0) :
    taxiDist a p + taxiDist p b = taxiDist a b := by
  unfold taxiPld at h
  linarith

theorem taxiPld_left (a b : Coord) : taxiPld a a b = 0 := by
  unfold taxiPld
  rw [taxiDist_self]
  ring

theorem taxiPld_right (a b : Coord) : taxiPld b a b = 0 := by
  unfold taxiPld
  rw [taxiDist_self]
  have : taxiDist a b = taxiDist b a := by
    unfold taxiDist
    rw [rabs_eq_abs, rabs_eq_abs, rabs_eq_abs, rabs_eq_abs]
    rw [abs_sub_comm a.1 b.1, abs_sub_comm a.2 b.2]
  rw [this]
  ring

/-- C6 counterexample: inserting the already-present vertex `(0,0)` into the
two-vertex line `[(0,0),(1,0)]` duplicates it — the result is
`[(0,0),(0,0),(1,0)]`, whose vertex count is 3 ≠ 2 and which holds the
vertex twice — refuting the no-duplication / unchanged-count parts of the
claim at this input. -/
theorem insertPoint_present_cex :
    ((0 : ℚ), (0 : ℚ)) ∈ presentLine ∧
    (∃ i, i + 1 < presentLine.length ∧
      presentLine.getD i c0 ≠ presentLine.getD (i + 1) c0) ∧
    insertPointIntoLineString taxiPld presentLine ((0 : ℚ), (0 : ℚ)) =
      (some [((0 : ℚ), (0 : ℚ)), ((0 : ℚ), (0 : ℚ)), ((1 : ℚ), (0 : ℚ))], true) ∧
    ¬ ([((0 : ℚ), (0 : ℚ)), ((0 : ℚ), (0 : ℚ)), ((1 : ℚ), (0 : ℚ))].length =
        presentLine.length) ∧
    [((0 : ℚ), (0 : ℚ)), ((0 : ℚ), (0 : ℚ)), ((1 : ℚ), (0 : ℚ))].count
        ((0 : ℚ), (0 : ℚ)) = 2 := by
  refine ⟨by decide, ⟨0, by decide, by decide⟩, by decide, by decide, by decide⟩

/-- C6 (amended): in the code, inserting a point that already occurs as a
vertex of a polyline with at least one pair of distinct consecutive
vertices succeeds and does insert an extra copy — the vertex count grows by
one — but the total length of the polyline is unchanged, for any
point-to-segment distance that is nonnegative, vanishes on segment
endpoints, and vanishes only when the point splits the segment distance
additively. -/
theorem insertPoint_present_amended (pld : Coord → Coord → Coord → ℚ)
    (dist : Coord → Coord → ℚ)
    (H0 : ∀ p a b, 0 ≤ pld p a b)
    (H1 : ∀ p a b, pld p a b = 0 → dist a p + dist p b = dist a b)
    (H2a : ∀ a b, pld a a b = 0) (H2b : ∀ a b, pld b a b = 0)
    (line : Line) (p : Coord) (hp : p ∈ line)
    (hv : ∃ i, i + 1 < line.length ∧ line.getD i c0 ≠ line.getD (i + 1) c0) :
    ∃ l', insertPointIntoLineString pld line p = (some l', true) ∧
      l'.length = line.length + 1 ∧
      totalLength dist l' = totalLength dist line := by
  classical
  have hq : ∃ q ∈ line, q ≠ p := by
    by_contra hq
    push_neg at hq
    rcases hv with ⟨i, hi, hne⟩
    have h1 : line.getD i c0 ∈ line := by
      rw [List.getD_eq_getElem line c0 (by omega)]
      exact List.getElem_mem _
    have h2 : line.getD (i + 1) c0 ∈ line := by
      rw [List.getD_eq_getElem line c0 hi]
      exact List.getElem_mem _
    exact hne ((hq _ h1).trans (hq _ h2).symm)
  rcases adj_pair_of_mem_ne line p hp hq with ⟨j, hj1, hj2, hj3⟩
  have hjz : segDist pld p line j = 0 := by
    rcases hj3 with h | h
    · unfold segDist
      rw [h]
      exact H2a _ _
    · unfold segDist
      rw [h]
      exact H2b _ _
  have hinv := closestSegScan_inv pld p line
  rcases hinv with ⟨hst, hall⟩ | ⟨i, hst, hi, hiv, hle, hlt⟩
  · have hns := hall j (by omega)
    unfold segValid at hns
    exact absurd hj2 hns
  · have hiz : segDist pld p line i = 0 := by
      have h1 : segDist pld p line i ≤ segDist pld p line j := hle j (by omega) hj2
      have h2 : 0 ≤ segDist pld p line i := H0 _ _ _
      rw [hjz] at h1
      linarith
    have hres : insertPointIntoLineString pld line p =
        (some (line.take (i + 1) ++ p :: line.drop (i + 1)), true) := by
      unfold insertPointIntoLineString
      rw [hst]
    have hi1 : i + 1 < line.length := by omega
    refine ⟨_, hres, ?_, ?_⟩
    · simp
      omega
    · set a := line.getD i c0 with ha
      set b := line.getD (i + 1) c0 with hb
      have htake : line.take (i + 1) = line.take i ++ [a] := by
        rw [ha, List.getD_eq_getElem?_getD]
        rw [List.take_succ]
        congr 1
        rw [List.getElem?_eq_getElem (by omega)]
        simp
      have hdrop : line.drop (i + 1) = b :: line.drop (i + 2) := by
        rw [hb, List.getD_eq_getElem?_getD]
        rw [List.drop_eq_getElem_cons hi1]
        rw [List.getElem?_eq_getElem hi1]
        simp
      have hline : line = line.take i ++ a :: b :: line.drop (i + 2) := by
        conv_lhs => rw [← List.take_append_drop (i + 1) line]
        rw [htake, hdrop]
        simp
      have hadd : dist a p + dist p b = dist a b := H1 p a b hiz
      calc totalLength dist (line.take (i + 1) ++ p :: line.drop (i + 1))
          = totalLength dist (line.take i ++ a :: p :: b :: line.drop (i + 2)) := by
            rw [htake, hdrop]; simp
        _ = totalLength dist (line.take i ++ [a]) +
              totalLength dist (a :: p :: b :: line.drop (i + 2)) :=
            totalLength_append dist _ a _
        _ = totalLength dist (line.take i ++ [a]) +
              (dist a p + (dist p b + totalLength dist (b :: line.drop (i + 2)))) := by
            simp [totalLength]
        _ = totalLength dist (line.take i ++ [a]) +
              (dist a b + totalLength dist (b :: line.drop (i + 2))) := by
            rw [← hadd]; ring
        _ = totalLength dist (line.take i ++ a :: b :: line.drop (i + 2)) := by
            rw [totalLength_append dist (line.take i) a (b :: line.drop (i + 2))]
            simp [totalLength]
        _ = totalLength dist line := by rw [← hline]

theorem coordToKey_apply (c : Coord) : coordToKey c = c := rfl

theorem edgesOf_pushEdge_self (g : Graph) (k : Node) (e : Edge) :
    edgesOf (pushEdge g k e) k = edgesOf g k ++ [e] := by
  unfold pushEdge edgesOf
  cases hf : findV g k with
  | none =>
      simp only [hf]
      rw [findV_setV_self g k ([] : List Edge)]
      simp only []
      rw [findV_setV_self]
      simp
  | some es =>
      simp only [hf]
      rw [findV_setV_self]
      simp

theorem edgesOf_pushEdge_ne (g : Graph) (k k' : Node) (e : Edge) (h : k' ≠ k) :
    edgesOf (pushEdge g k e) k' = edgesOf g k' := by
  unfold pushEdge edgesOf
  cases hf : findV g k with
  | none =>
      simp only [hf]
      rw [findV_setV_self g k ([] : List Edge)]
      simp only []
      rw [findV_setV_ne _ _ _ _ h, findV_setV_ne _ _ _ _ h]
  | some es =>
      simp only [hf]
      rw [findV_setV_ne _ _ _ _ h]

theorem mem_edgesOf_pushEdge {g : Graph} {k : Node} {tw : Edge}
    (h : tw ∈ edgesOf g k) (k' : Node) (e : Edge) :
    tw ∈ edgesOf (pushEdge g k' e) k := by
  by_cases hk : k = k'
  · subst hk
    rw [edgesOf_pushEdge_self]
    exact List.mem_append_left _ h
  · rw [edgesOf_pushEdge_ne g k' k e hk]
    exact h

theorem mem_edgesOf_pushEdge_inv {g : Graph} {k k' : Node} {tw e : Edge}
    (h : tw ∈ edgesOf (pushEdge g k' e) k) :
    tw ∈ edgesOf g k ∨ (k = k' ∧ tw = e) := by
  by_cases hk : k = k'
  · subst hk
    rw [edgesOf_pushEdge_self] at h
    rcases List.mem_append.mp h with h1 | h1
    · exact Or.inl h1
    · simp at h1
      exact Or.inr ⟨rfl, h1⟩
  · rw [edgesOf_pushEdge_ne g k' k e hk] at h
    exact Or.inl h

theorem addCoords_mono (dist : Coord → Coord → ℚ) (prev : Option Coord) (cs : List Coord)
    (g : Graph) (k : Node) (tw : Edge) (h : tw ∈ edgesOf g k) :
    tw ∈ edgesOf (addCoords dist g prev cs) k := by
  induction cs generalizing g prev with
  | nil => exact h
  | cons c rest ih =>
      unfold addCoords
      apply ih
      cases prev with
      | none =>
          cases rest with
          | nil => exact h
          | cons r rest' => exact mem_edgesOf_pushEdge h _ _
      | some p =>
          cases rest with
          | nil => exact mem_edgesOf_pushEdge h _ _
          | cons r rest' => exact mem_edgesOf_pushEdge (mem_edgesOf_pushEdge h _ _) _ _

theorem adjacent_cons {l : Line} {x y z : Coord} (h : Adjacent l x y) :
    Adjacent (z :: l) x y := by
  rcases h with ⟨i, hi, hx, hy⟩
  exact ⟨i + 1, by simpa using hi, by simpa using hx, by simpa using hy⟩

theorem adjacent_head (x y : Coord) (t : Line) : Adjacent (x :: y :: t) x y :=
  ⟨0, by simp, by simp, by simp⟩

theorem addCoords_sound (dist : Coord → Coord → ℚ) (prev : Option Coord)
    (cs : List Coord) (g : Graph) (k : Node) (tw : Edge)
    (h : tw ∈ edgesOf (addCoords dist g prev cs) k) :
    tw ∈ edgesOf g k ∨
      ((Adjacent (withPrev prev cs) k tw.target ∨ Adjacent (withPrev prev cs) tw.target k) ∧
        tw.weight = dist k tw.target) := by
  induction cs generalizing g prev with
  | nil => exact Or.inl h
  | cons c rest ih =>
      unfold addCoords at h
      rcases ih _ _ h with h1 | ⟨hadj, hw⟩
      · -- membership in the graph after the (up to two) pushes of this step
        have hlift : ∀ {x y : Coord},
            (Adjacent (c :: rest) x y) → Adjacent (withPrev prev (c :: rest)) x y := by
          intro x y hxy
          cases prev with
          | none => exact hxy
          | some p => exact adjacent_cons hxy
        simp only [coordToKey_apply] at h1
        cases prev with
        | none =>
            cases rest with
            | nil => exact Or.inl h1
            | cons r rest' =>
                rcases mem_edgesOf_pushEdge_inv h1 with h2 | ⟨hk, he⟩
                · exact Or.inl h2
                · rw [hk, he]
                  exact Or.inr ⟨Or.inl (hlift (adjacent_head c r rest')), rfl⟩
        | some p =>
            cases rest with
            | nil =>
                rcases mem_edgesOf_pushEdge_inv h1 with h2 | ⟨hk, he⟩
                · exact Or.inl h2
                · rw [hk, he]
                  exact Or.inr ⟨Or.inr (adjacent_head p c []), rfl⟩
            | cons r rest' =>
                rcases mem_edgesOf_pushEdge_inv h1 with h2 | ⟨hk, he⟩
                · rcases mem_edgesOf_pushEdge_inv h2 with h3 | ⟨hk2, he2⟩
                  · exact Or.inl h3
                  · rw [hk2, he2]
                    exact Or.inr ⟨Or.inr (adjacent_head p c (r :: rest')), rfl⟩
                · rw [hk, he]
                  exact Or.inr ⟨Or.inl (hlift (adjacent_head c r rest')), rfl⟩
      · -- adjacency found deeper in the recursion: lift across the head
        refine Or.inr ⟨?_, hw⟩
        have hlift2 : ∀ {x y : Coord},
            Adjacent (withPrev (some c) rest) x y →
              Adjacent (withPrev prev (c :: rest)) x y := by
          intro x y hxy
          cases prev with
          | none => exact hxy
          | some p => exact adjacent_cons hxy
        rcases hadj with h3 | h3
        · exact Or.inl (hlift2 h3)
        · exact Or.inr (hlift2 h3)

theorem addCoords_next (dist : Coord → Coord → ℚ) :
    ∀ (cs : List Coord) (g : Graph) (prev : Option Coord) (i : ℕ),
      i + 1 < cs.length →
      (⟨cs.getD (i + 1) c0, dist (cs.getD i c0) (cs.getD (i + 1) c0)⟩ : Edge) ∈
        edgesOf (addCoords dist g prev cs) (cs.getD i c0) := by
  intro cs
  induction cs with
  | nil => intro g prev i hi; simp at hi
  | cons c rest ih =>
      intro g prev i hi
      cases i with
      | zero =>
          cases rest with
          | nil => simp at hi
          | cons r rest' =>
              unfold addCoords
              apply addCoords_mono
              simp only [List.getD_cons_zero, List.getD_cons_succ, coordToKey_apply]
              rw [edgesOf_pushEdge_self]
              simp
      | succ n =>
          unfold addCoords
          simp only [List.getD_cons_succ]
          exact ih _ (some c) n (by simpa using hi)

theorem addCoords_boundary (dist : Coord → Coord → ℚ) (g : Graph) (p c : Coord)
    (rest : List Coord) :
    (⟨p, dist c p⟩ : Edge) ∈ edgesOf (addCoords dist g (some p) (c :: rest)) c := by
  unfold addCoords
  apply addCoords_mono
  simp only [coordToKey_apply]
  cases rest with
  | nil =>
      rw [edgesOf_pushEdge_self]
      simp
  | cons r rest' =>
      apply mem_edgesOf_pushEdge
      rw [edgesOf_pushEdge_self]
      simp

theorem addCoords_prev (dist : Coord → Coord → ℚ) :
    ∀ (cs : List Coord) (g : Graph) (prev : Option Coord) (j : ℕ),
      j + 1 < cs.length →
      (⟨cs.getD j c0, dist (cs.getD (j + 1) c0) (cs.getD j c0)⟩ : Edge) ∈
        edgesOf (addCoords dist g prev cs) (cs.getD (j + 1) c0) := by
  intro cs
  induction cs with
  | nil => intro g prev j hj; simp at hj
  | cons c rest ih =>
      intro g prev j hj
      cases j with
      | zero =>
          cases rest with
          | nil => simp at hj
          | cons r rest' =>
              simp only [List.getD_cons_zero, List.getD_cons_succ]
              unfold addCoords
              exact addCoords_boundary dist _ c r rest'
      | succ n =>
          simp only [List.getD_cons_succ]
          unfold addCoords
          exact ih _ (some c) n (by simpa using hj)

theorem edgesOf_nil (k : Node) : edgesOf [] k = [] := rfl

theorem assembleLoop_sound (dist : Coord → Coord → ℚ) (oracle : ℕ → Bool) :
    ∀ (ls : List Line) (i : ℕ) (g : Graph) (pc : ℕ) (k : Node) (tw : Edge),
      tw ∈ edgesOf (assembleLoop dist oracle ls i g pc).1 k →
      tw ∈ edgesOf g k ∨ ∃ l ∈ ls,
        (Adjacent l k tw.target ∨ Adjacent l tw.target k) ∧
          tw.weight = dist k tw.target := by
  intro ls
  induction ls with
  | nil => intro i g pc k tw h; exact Or.inl h
  | cons l ls ih =>
      intro i g pc k tw h
      unfold assembleLoop at h
      by_cases h5 : i % 5 = 0
      · rw [if_pos h5] at h
        by_cases ho : oracle pc = true
        · rw [if_pos ho] at h
          rw [edgesOf_nil] at h
          simp at h
        · rw [if_neg ho] at h
          rcases ih _ _ _ _ _ h with h1 | ⟨l', hl', hrest⟩
          · rcases addCoords_sound dist none l g k tw h1 with h2 | h2
            · exact Or.inl h2
            · exact Or.inr ⟨l, by simp, by simpa [withPrev] using h2⟩
          · exact Or.inr ⟨l', List.mem_cons_of_mem _ hl', hrest⟩
      · rw [if_neg h5] at h
        rcases ih _ _ _ _ _ h with h1 | ⟨l', hl', hrest⟩
        · rcases addCoords_sound dist none l g k tw h1 with h2 | h2
          · exact Or.inl h2
          · exact Or.inr ⟨l, by simp, by simpa [withPrev] using h2⟩
        · exact Or.inr ⟨l', List.mem_cons_of_mem _ hl', hrest⟩

theorem assembleLoop_mono (dist : Coord → Coord → ℚ) :
    ∀ (ls : List Line) (i : ℕ) (g : Graph) (pc : ℕ) (k : Node) (tw : Edge),
      tw ∈ edgesOf g k →
      tw ∈ edgesOf (assembleLoop dist (fun _ => false) ls i g pc).1 k := by
  intro ls
  induction ls with
  | nil => intro i g pc k tw h; exact h
  | cons l ls ih =>
      intro i g pc k tw h
      unfold assembleLoop
      by_cases h5 : i % 5 = 0
      · rw [if_pos h5]
        exact ih _ _ _ _ _ (addCoords_mono dist none l g k tw h)
      · rw [if_neg h5]
        exact ih _ _ _ _ _ (addCoords_mono dist none l g k tw h)

theorem assembleLoop_complete (dist : Coord → Coord → ℚ) :
    ∀ (ls : List Line) (i : ℕ) (g : Graph) (pc : ℕ),
      ∀ l ∈ ls, ∀ j, j + 1 < l.length →
        (⟨l.getD (j + 1) c0, dist (l.getD j c0) (l.getD (j + 1) c0)⟩ : Edge) ∈
          edgesOf (assembleLoop dist (fun _ => false) ls i g pc).1 (l.getD j c0) ∧
        (⟨l.getD j c0, dist (l.getD (j + 1) c0) (l.getD j c0)⟩ : Edge) ∈
          edgesOf (assembleLoop dist (fun _ => false) ls i g pc).1 (l.getD (j + 1) c0) := by
  intro ls
  induction ls with
  | nil => intro i g pc l hl; simp at hl
  | cons l0 ls ih =>
      intro i g pc l hl j hj
      rcases List.mem_cons.mp hl with hl1 | hl1
      · subst hl1
        have h1 := addCoords_next dist l g none j hj
        have h2 := addCoords_prev dist l g none j hj
        unfold assembleLoop
        by_cases h5 : i % 5 = 0
        · rw [if_pos h5]
          exact ⟨assembleLoop_mono dist _ _ _ _ _ _ h1,
            assembleLoop_mono dist _ _ _ _ _ _ h2⟩
        · rw [if_neg h5]
          exact ⟨assembleLoop_mono dist _ _ _ _ _ _ h1,
            assembleLoop_mono dist _ _ _ _ _ _ h2⟩
      · unfold assembleLoop
        by_cases h5 : i % 5 = 0
        · rw [if_pos h5]
          exact ih _ _ _ l hl1 j hj
        · rw [if_neg h5]
          exact ih _ _ _ l hl1 j hj

theorem buildNetwork_eq (li : Line → Line → List Coord) (pld : Coord → Coord → Coord → ℚ)
    (dist : Coord → Coord → ℚ) (oracle : ℕ → Bool) (lines : List Line) (pc : ℕ) :
    buildNetwork li pld dist false oracle lines pc =
      assembleLoop dist oracle (getIntersections li pld oracle lines pc).1 0 []
        (getIntersections li pld oracle lines pc).2 := by
  simp [buildNetwork]

/-- C7 counterexample: `buildNetwork` does not skip zero-length segments, so
on a polyline with an equal consecutive vertex pair the graph stores, under
the key `(0,0)`, a self-loop edge with target `(0,0)` and weight 0 — the
claimed invariant fails at this input. -/
theorem buildNetwork_self_loop_cex :
    (⟨((0 : ℚ), (0 : ℚ)), 0⟩ : Edge) ∈
      edgesOf (buildNetwork noInter taxiPld taxiDist false (fun _ => false)
        selfLoopLines 0).1 ((0 : ℚ), (0 : ℚ)) := by
  decide

/-- C7 (amended): the self-loop freedom holds only under the proviso that the
refined polylines coming out of the intersection resolver have pairwise
distinct consecutive vertices; in that case the graph built by
`buildNetwork` stores no edge whose target equals its own key at all (in
particular none of weight 0).  Without the proviso, zero-weight self-loops
occur (see the counterexample). -/
theorem buildNetwork_no_self_loop_amended (li : Line → Line → List Coord)
    (pld : Coord → Coord → Coord → ℚ) (dist : Coord → Coord → ℚ)
    (oracle : ℕ → Bool) (lines : List Line) (pc : ℕ)
    (hfmt : ∀ l ∈ (getIntersections li pld oracle lines pc).1,
      ∀ i, i + 1 < l.length → l.getD i c0 ≠ l.getD (i + 1) c0) :
    ∀ k w, (⟨k, w⟩ : Edge) ∉
      edgesOf (buildNetwork li pld dist false oracle lines pc).1 k := by
  intro k w hmem
  rw [buildNetwork_eq] at hmem
  rcases assembleLoop_sound dist oracle _ _ _ _ _ _ hmem with h1 | ⟨l, hl, hadj, _⟩
  · rw [edgesOf_nil] at h1
    simp at h1
  · rcases hadj with ⟨i, hi, hx, hy⟩ | ⟨i, hi, hx, hy⟩
    · exact hfmt l hl i hi (by rw [hx, hy])
    · exact hfmt l hl i hi (by rw [hx, hy])

/-- C8: the graph of `buildNetwork` (absent a timeout) is exactly the
adjacency structure of the refined polylines: every pair of consecutive
vertices of a refined polyline is linked by an edge in each direction, and
(with the symmetric external distance) both carry the same weight, the
distance of the two vertices; conversely every stored edge arises from some
consecutive pair of a refined polyline, so no edge links non-adjacent
vertices. -/
theorem buildNetwork_adjacency (li : Line → Line → List Coord)
    (pld : Coord → Coord → Coord → ℚ) (dist : Coord → Coord → ℚ)
    (lines : List Line) (pc : ℕ)
    (hsymm : ∀ a b, dist a b = dist b a) :
    (∀ l ∈ (getIntersections li pld (fun _ => false) lines pc).1,
      ∀ j, j + 1 < l.length →
        (⟨l.getD (j + 1) c0, dist (l.getD j c0) (l.getD (j + 1) c0)⟩ : Edge) ∈
          edgesOf (buildNetwork li pld dist false (fun _ => false) lines pc).1
            (l.getD j c0) ∧
        (⟨l.getD j c0, dist (l.getD j c0) (l.getD (j + 1) c0)⟩ : Edge) ∈
          edgesOf (buildNetwork li pld dist false (fun _ => false) lines pc).1
            (l.getD (j + 1) c0)) ∧
    (∀ k tw, tw ∈
        edgesOf (buildNetwork li pld dist false (fun _ => false) lines pc).1 k →
      ∃ l ∈ (getIntersections li pld (fun _ => false) lines pc).1,
        (Adjacent l k tw.target ∨ Adjacent l tw.target k) ∧
          tw.weight = dist k tw.target) := by
  constructor
  · intro l hl j hj
    rw [buildNetwork_eq]
    have h := assembleLoop_complete dist _ 0 []
      (getIntersections li pld (fun _ => false) lines pc).2 l hl j hj
    refine ⟨h.1, ?_⟩
    have h2 := h.2
    rw [hsymm (l.getD (j + 1) c0) (l.getD j c0)] at h2
    exact h2
  · intro k tw hmem
    rw [buildNetwork_eq] at hmem
    rcases assembleLoop_sound dist _ _ _ _ _ _ _ hmem with h1 | h1
    · rw [edgesOf_nil] at h1
      simp at h1
    · exact h1

theorem initPred_values (g : Graph) (v : Node) (o : Option Node)
    (h : findV (initPred g) v = some o) : o = none := by
  unfold initPred at h
  have hgen : ∀ (gs : Graph) (m : List (Node × Option Node)),
      (∀ w o2, findV m w = some o2 → o2 = none) →
      ∀ w o2, findV (gs.foldl (fun m e => setV m e.1 (none : Option Node)) m) w = some o2 →
        o2 = none := by
    intro gs
    induction gs with
    | nil => intro m hm w o2 h2; exact hm w o2 h2
    | cons e gs ih =>
        intro m hm w o2 h2
        refine ih _ ?_ w o2 h2
        intro w2 o3 h3
        by_cases hw : w2 = e.1
        · subst hw
          rw [findV_setV_self] at h3
          injection h3 with h4
          exact h4.symm
        · rw [findV_setV_ne _ _ _ _ hw] at h3
          exact hm w2 o3 h3
  exact hgen g [] (by intro w o2 h2; simp [findV] at h2) v o h

theorem jsOrNull_initPred (g : Graph) (v : Node) :
    jsOrNull (findV (initPred g) v) = none := by
  cases hf : findV (initPred g) v with
  | none => rfl
  | some o =>
      rw [initPred_values g v o hf]
      rfl

theorem findV_initDist_source (g : Graph) (s : Node) :
    findV (initDist g s) s = some 0 := findV_setV_self _ _ _

theorem dloop_one_vertex (g : Graph) (s : Node) (fuel : ℕ) :
    dloop g s (fuel + 1) ⟨initDist g s, initPred g, [], [(s, 0)]⟩ =
      some ⟨initDist g s, initPred g, [s], []⟩ := by
  rw [dloop]
  simp [extractMin, minIdxFold]

theorem reconstructLoop_none (pred : List (Node × Option Node)) (fuel : ℕ)
    (acc : List Node) : reconstructLoop pred fuel none acc = some acc := by
  rw [reconstructLoop]

theorem reconstructLoop_succ (pred : List (Node × Option Node)) (fuel : ℕ)
    (v : Node) (acc : List Node) :
    reconstructLoop pred (fuel + 1) (some v) acc =
      reconstructLoop pred fuel (jsOrNull (findV pred v)) (v :: acc) := by
  rw [reconstructLoop]

theorem dijkstra_self (g : Graph) (s : Node) : dijkstra false g s s = ([s], ⊤) := by
  unfold dijkstra
  rw [if_neg (by simp)]
  have hfuel : dijkstraFuel g = 2 * graphWeight g + 1 := rfl
  rw [hfuel, dloop_one_vertex]
  simp only []
  rw [reconstructLoop_succ, jsOrNull_initPred, reconstructLoop_none]
  simp [findV_initDist_source, jsOrInfinity]

theorem reconstructLoop_stops (pred : List (Node × Option Node))
    (hpred : ∀ v o, findV pred v = some o → o = none)
    (fuel : ℕ) (v : Node) (acc : List Node) (h : 1 ≤ fuel) :
    reconstructLoop pred fuel (some v) acc = some (v :: acc) := by
  cases fuel with
  | zero => omega
  | succ n =>
      rw [reconstructLoop_succ]
      have hn : jsOrNull (findV pred v) = none := by
        cases hf : findV pred v with
        | none => rfl
        | some o => rw [hpred v o hf]; rfl
      rw [hn, reconstructLoop_none]

theorem dijkstra_empty_graph (flag : Bool) (s t : Node) :
    (dijkstra flag [] s t).2 = ⊤ := by
  cases flag with
  | true => rfl
  | false =>
      by_cases hst : s = t
      · subst hst
        rw [dijkstra_self]
      · unfold dijkstra
        rw [if_neg (by simp)]
        have h1 : dijkstraFuel ([] : Graph) = 1 := rfl
        rw [h1]
        have hd : dloop ([] : Graph) t 1 ⟨initDist [] s, initPred [], [], [(s, 0)]⟩ =
            some ⟨initDist [] s, initPred [], [s], []⟩ := by
          rw [dloop]
          simp [extractMin, minIdxFold, pqDefault, edgesOf, findV, relaxEdges, hst, dloop]
        rw [hd]
        simp only []
        have hr : reconstructLoop (initPred ([] : Graph))
            ((initDist ([] : Graph) s).length + 1) (some t) [] = some [t] := by
          refine reconstructLoop_stops _ ?_ _ _ _ (by omega)
          intro v o h2
          simp [initPred, findV] at h2
        rw [hr]
        simp [Ne.symm hst]

theorem getIntersections_fires (li : Line → Line → List Coord)
    (pld : Coord → Coord → Coord → ℚ) (oracle : ℕ → Bool) (lines : List Line)
    (pc : ℕ) (ho : oracle pc = true) (hl : lines ≠ []) :
    (getIntersections li pld oracle lines pc).1 = [] := by
  unfold getIntersections
  rcases lines with _ | ⟨l, ls⟩
  · exact absurd rfl hl
  · have hr : List.range (l :: ls).length = 0 :: (List.range ls.length).map Nat.succ := by
      rw [List.length_cons, List.range_succ_eq_map]
    rw [hr]
    rw [interOuter]
    simp [ho]

theorem buildNetwork_all_timeout (li : Line → Line → List Coord)
    (pld : Coord → Coord → Coord → ℚ) (dist : Coord → Coord → ℚ) (flag : Bool)
    (lines : List Line) (pc : ℕ) :
    (buildNetwork li pld dist flag (fun _ => true) lines pc).1 = [] := by
  cases flag with
  | true => rfl
  | false =>
      have hfmt : (getIntersections li pld (fun _ => true) lines pc).1 = [] := by
        rcases hl : lines with _ | ⟨l, ls⟩
        · rfl
        · exact getIntersections_fires li pld _ _ pc rfl (by simp)
      rw [buildNetwork_eq, hfmt]
      rw [assembleLoop]

theorem interInner_poll (li : Line → Line → List Coord)
    (pld : Coord → Coord → Coord → ℚ) (oracle : ℕ → Bool) (orig : List Line)
    (i : ℕ) :
    ∀ (js : List ℕ) (m : List (ℕ × Line)) (pc : ℕ),
      pc ≤ (interInner li pld oracle orig i js m pc).2 ∧
      ((∃ k, pc ≤ k ∧ k < (interInner li pld oracle orig i js m pc).2 ∧
          oracle k = true) →
        (interInner li pld oracle orig i js m pc).1 = none) := by
  intro js
  induction js with
  | nil =>
      intro m pc
      refine ⟨le_refl pc, ?_⟩
      rintro ⟨k, hk1, hk2, _⟩
      exact absurd (lt_of_le_of_lt hk1 hk2) (lt_irrefl pc)
  | cons j js2 ih =>
      intro m pc
      unfold interInner
      by_cases hi5 : i % 5 = 0
      · rw [if_pos hi5]
        by_cases ho : oracle pc = true
        · rw [if_pos ho]
          exact ⟨Nat.le_succ pc, fun _ => rfl⟩
        · rw [if_neg ho]
          obtain ⟨h1, h2⟩ := ih (interBody li pld orig i j m) (pc + 1)
          refine ⟨by omega, ?_⟩
          rintro ⟨k, hk1, hk2, hk3⟩
          by_cases hkp : k = pc
          · exact absurd (hkp ▸ hk3) ho
          · exact h2 ⟨k, by omega, hk2, hk3⟩
      · rw [if_neg hi5]
        exact ih (interBody li pld orig i j m) pc

theorem interOuter_poll (li : Line → Line → List Coord)
    (pld : Coord → Coord → Coord → ℚ) (oracle : ℕ → Bool) (orig : List Line) :
    ∀ (is2 : List ℕ) (m : List (ℕ × Line)) (pc : ℕ),
      pc ≤ (interOuter li pld oracle orig is2 m pc).2 ∧
      ((∃ k, pc ≤ k ∧ k < (interOuter li pld oracle orig is2 m pc).2 ∧
          oracle k = true) →
        (interOuter li pld oracle orig is2 m pc).1 = none) := by
  intro is2
  induction is2 with
  | nil =>
      intro m pc
      refine ⟨le_refl pc, ?_⟩
      rintro ⟨k, hk1, hk2, _⟩
      exact absurd (lt_of_le_of_lt hk1 hk2) (lt_irrefl pc)
  | cons i is3 ih =>
      intro m pc
      unfold interOuter
      by_cases hi5 : i % 5 = 0
      · rw [if_pos hi5]
        by_cases ho : oracle pc = true
        · rw [if_pos ho]
          exact ⟨Nat.le_succ pc, fun _ => rfl⟩
        · rw [if_neg ho]
          rcases hin : interInner li pld oracle orig i
              (List.range' (i + 1) (orig.length - (i + 1))) m (pc + 1) with ⟨res, pc2⟩
          obtain ⟨hI1, hI2⟩ := interInner_poll li pld oracle orig i
            (List.range' (i + 1) (orig.length - (i + 1))) m (pc + 1)
          rw [hin] at hI1 hI2
          cases res with
          | none =>
              exact ⟨le_trans (Nat.le_succ pc) hI1, fun _ => rfl⟩
          | some m2 =>
              obtain ⟨hO1, hO2⟩ := ih m2 pc2
              refine ⟨le_trans (Nat.le_succ pc) (le_trans hI1 hO1), ?_⟩
              rintro ⟨k, hk1, hk2, hk3⟩
              have hk2b : k < (interOuter li pld oracle orig is3 m2 pc2).2 := hk2
              by_cases hkp : k = pc
              · exact absurd (hkp ▸ hk3) ho
              · by_cases hk4 : k < pc2
                · have h5 := hI2 ⟨k, by omega, hk4, hk3⟩
                  simp at h5
                · exact hO2 ⟨k, by omega, hk2b, hk3⟩
      · rw [if_neg hi5]
        rcases hin : interInner li pld oracle orig i
            (List.range' (i + 1) (orig.length - (i + 1))) m pc with ⟨res, pc2⟩
        obtain ⟨hI1, hI2⟩ := interInner_poll li pld oracle orig i
          (List.range' (i + 1) (orig.length - (i + 1))) m pc
        rw [hin] at hI1 hI2
        cases res with
        | none =>
            exact ⟨hI1, fun _ => rfl⟩
        | some m2 =>
            obtain ⟨hO1, hO2⟩ := ih m2 pc2
            refine ⟨le_trans hI1 hO1, ?_⟩
            rintro ⟨k, hk1, hk2, hk3⟩
            have hk2b : k < (interOuter li pld oracle orig is3 m2 pc2).2 := hk2
            by_cases hk4 : k < pc2
            · have h5 := hI2 ⟨k, hk1, hk4, hk3⟩
              simp at h5
            · exact hO2 ⟨k, by omega, hk2b, hk3⟩

theorem assembleLoop_poll (dist : Coord → Coord → ℚ) (oracle : ℕ → Bool) :
    ∀ (ls : List Line) (i : ℕ) (g : Graph) (pc : ℕ),
      pc ≤ (assembleLoop dist oracle ls i g pc).2 ∧
      ((∃ k, pc ≤ k ∧ k < (assembleLoop dist oracle ls i g pc).2 ∧
          oracle k = true) →
        (assembleLoop dist oracle ls i g pc).1 = []) := by
  intro ls
  induction ls with
  | nil =>
      intro i g pc
      refine ⟨le_refl pc, ?_⟩
      rintro ⟨k, hk1, hk2, _⟩
      exact absurd (lt_of_le_of_lt hk1 hk2) (lt_irrefl pc)
  | cons l ls2 ih =>
      intro i g pc
      unfold assembleLoop
      by_cases hi5 : i % 5 = 0
      · rw [if_pos hi5]
        by_cases ho : oracle pc = true
        · rw [if_pos ho]
          exact ⟨Nat.le_succ pc, fun _ => rfl⟩
        · rw [if_neg ho]
          obtain ⟨h1, h2⟩ := ih (i + 1) (addCoords dist g none l) (pc + 1)
          refine ⟨by omega, ?_⟩
          rintro ⟨k, hk1, hk2, hk3⟩
          by_cases hkp : k = pc
          · exact absurd (hkp ▸ hk3) ho
          · exact h2 ⟨k, by omega, hk2, hk3⟩
      · rw [if_neg hi5]
        exact ih (i + 1) (addCoords dist g none l) pc

theorem getIntersections_periodic (li : Line → Line → List Coord)
    (pld : Coord → Coord → Coord → ℚ) (oracle : ℕ → Bool) (lines : List Line)
    (pc : ℕ)
    (hfires : ∃ k, pc ≤ k ∧ k < (getIntersections li pld oracle lines pc).2 ∧
      oracle k = true) :
    (getIntersections li pld oracle lines pc).1 = [] := by
  unfold getIntersections at hfires ⊢
  rcases hin : interOuter li pld oracle lines (List.range lines.length) [] pc
    with ⟨res, pc2⟩
  obtain ⟨hO1, hO2⟩ := interOuter_poll li pld oracle lines
    (List.range lines.length) [] pc
  rw [hin] at hO1 hO2 hfires
  cases res with
  | none => rfl
  | some m =>
      have hf2 : ∃ k, pc ≤ k ∧ k < pc2 ∧ oracle k = true := hfires
      have h5 := hO2 hf2
      simp at h5

theorem buildNetwork_periodic (li : Line → Line → List Coord)
    (pld : Coord → Coord → Coord → ℚ) (dist : Coord → Coord → ℚ)
    (tooFar : Bool) (oracle : ℕ → Bool) (lines : List Line) (pc : ℕ)
    (hfires : ∃ k, pc ≤ k ∧
      k < (buildNetwork li pld dist tooFar oracle lines pc).2 ∧
      oracle k = true) :
    (buildNetwork li pld dist tooFar oracle lines pc).1 = [] := by
  cases tooFar with
  | true =>
      rcases hfires with ⟨k, hk1, hk2, _⟩
      have : (buildNetwork li pld dist true oracle lines pc).2 = pc := rfl
      rw [this] at hk2
      omega
  | false =>
      obtain ⟨hO1, hO2⟩ := interOuter_poll li pld oracle lines
        (List.range lines.length) [] pc
      have hg : buildNetwork li pld dist false oracle lines pc =
          assembleLoop dist oracle (getIntersections li pld oracle lines pc).1 0 []
            (getIntersections li pld oracle lines pc).2 := rfl
      obtain ⟨hA1, hA2⟩ := assembleLoop_poll dist oracle
        (getIntersections li pld oracle lines pc).1 0 []
        (getIntersections li pld oracle lines pc).2
      rw [hg] at hfires ⊢
      rcases hfires with ⟨k, hk1, hk2, hk3⟩
      by_cases hk4 : k < (getIntersections li pld oracle lines pc).2
      · have hempty := getIntersections_periodic li pld oracle lines pc ⟨k, hk1, hk4, hk3⟩
        rw [hempty]
        have hnil : assembleLoop dist oracle [] 0 []
            (getIntersections li pld oracle lines pc).2 =
            ([], (getIntersections li pld oracle lines pc).2) := rfl
        rw [hnil]
      · exact hA2 ⟨k, by omega, hk2, hk3⟩

/-- C3: once the wall-clock budget is exceeded during network
construction, no further geometric work happens: whenever one of the
periodic timeout polls that `getIntersections` makes fires (the polls it
makes are exactly the consecutive counter values between entry and exit,
and a firing one aborts the loop), it returns the empty polyline list;
whenever one of the polls made during `buildNetwork` fires — in its own
graph-population loop as much as in the intersection phase — the returned
graph is empty; and every `dijkstra` lookup against an empty graph
resolves to distance `Infinity` (unreachable) — a value, never an
error. -/
theorem timeout_degradation :
    (∀ (li : Line → Line → List Coord) (pld : Coord → Coord → Coord → ℚ)
        (oracle : ℕ → Bool) (lines : List Line) (pc : ℕ),
      (∃ k, pc ≤ k ∧ k < (getIntersections li pld oracle lines pc).2 ∧
        oracle k = true) →
      (getIntersections li pld oracle lines pc).1 = []) ∧
    (∀ (li : Line → Line → List Coord) (pld : Coord → Coord → Coord → ℚ)
        (dist : Coord → Coord → ℚ) (tooFar : Bool) (oracle : ℕ → Bool)
        (lines : List Line) (pc : ℕ),
      (∃ k, pc ≤ k ∧ k < (buildNetwork li pld dist tooFar oracle lines pc).2 ∧
        oracle k = true) →
      (buildNetwork li pld dist tooFar oracle lines pc).1 = []) ∧
    (∀ (flag : Bool) (s t : Node), (dijkstra flag [] s t).2 = ⊤) :=
  ⟨getIntersections_periodic, buildNetwork_periodic, dijkstra_empty_graph⟩

/-- C3 witness: the statement instantiated at concrete inputs with
mid-construction timeouts — a clock firing only at the seventh poll stops
the intersection resolution of six lines in the middle of its pair loop,
a clock firing only at the third poll on the two-line input passes the
whole intersection phase and trips the graph-population loop of
`buildNetwork` itself, and a lookup against the empty graph is
unreachable. -/
theorem timeout_degradation_witness :
    ((0 ≤ 6 ∧ 6 < (getIntersections noInter taxiPld orc6 lines6 0).2 ∧
        orc6 6 = true) ∧
      (getIntersections noInter taxiPld orc6 lines6 0).1 = []) ∧
    ((0 ≤ 2 ∧ 2 < (buildNetwork noInter taxiPld taxiDist false orcB wLines 0).2 ∧
        orcB 2 = true) ∧
      (getIntersections noInter taxiPld orcB wLines 0).1 ≠ [] ∧
      (buildNetwork noInter taxiPld taxiDist false orcB wLines 0).1 = []) ∧
    (dijkstra false [] ((0 : ℚ), (0 : ℚ)) ((1 : ℚ), (0 : ℚ))).2 = ⊤ :=
  ⟨⟨⟨by decide, by decide, by decide⟩,
    timeout_degradation.1 noInter taxiPld orc6 lines6 0
      ⟨6, by decide, by decide, by decide⟩⟩,
   ⟨⟨by decide, by decide, by decide⟩, by decide,
    timeout_degradation.2.1 noInter taxiPld taxiDist false orcB wLines 0
      ⟨2, by decide, by decide, by decide⟩⟩,
   timeout_degradation.2.2 false _ _⟩

theorem PosWeights.edge {g : Graph} (hpos : PosWeights g) {a : Node} {tw : Edge}
    (h : tw ∈ edgesOf g a) : 0 < tw.weight := by
  unfold edgesOf at h
  cases hf : findV g a with
  | none => rw [hf] at h; simp at h
  | some es =>
      rw [hf] at h
      exact hpos (a, es) (findV_mem hf) tw h

theorem IsWalk.weight_nonneg {g : Graph} (hpos : PosWeights g) :
    ∀ {p : List Node} {a b : Node} {w : ℚ}, IsWalk g p a b w → 0 ≤ w := by
  intro p a b w h
  induction h with
  | single => exact le_refl 0
  | step he _ ih =>
      have := hpos.edge he
      simp only [] at this
      linarith

theorem IsWalk.weight_pos {g : Graph} (hpos : PosWeights g) :
    ∀ {p : List Node} {a b : Node} {w : ℚ}, IsWalk g p a b w → a ≠ b → 0 < w := by
  intro p a b w h
  induction h with
  | single => intro hab; exact absurd rfl hab
  | step he hw ih =>
      intro hab
      have h1 := hpos.edge he
      have h2 := hw.weight_nonneg hpos
      simp only [] at h1
      linarith

theorem IsWalk.append_edge {g : Graph} :
    ∀ {p : List Node} {a b c : Node} {wb w : ℚ},
      IsWalk g p a b wb → (⟨c, w⟩ : Edge) ∈ edgesOf g b →
      IsWalk g (p ++ [c]) a c (wb + w) := by
  intro p a b c wb w h
  induction h with
  | single a =>
      intro he
      have := IsWalk.step he (IsWalk.single c)
      simpa using this
  | step he1 hw ih =>
      intro he
      have h2 := ih he
      have h3 := IsWalk.step he1 h2
      rename_i a1 b1 t1 rest1 w1 wr1
      have heq : w1 + (wr1 + w) = w1 + wr1 + w := by ring
      rw [heq] at h3
      simpa using h3

theorem Reach.refl (g : Graph) (a : Node) : Reach g a a 0 := ⟨[a], IsWalk.single a⟩

theorem Reach.nonneg {g : Graph} (hpos : PosWeights g) {a b : Node} {w : ℚ}
    (h : Reach g a b w) : 0 ≤ w := by
  rcases h with ⟨p, hp⟩
  exact hp.weight_nonneg hpos

theorem Reach.extend {g : Graph} {a b c : Node} {wb w : ℚ}
    (h : Reach g a b wb) (he : (⟨c, w⟩ : Edge) ∈ edgesOf g b) :
    Reach g a c (wb + w) := by
  rcases h with ⟨p, hp⟩
  exact ⟨p ++ [c], hp.append_edge he⟩

theorem IsShortest.source (g : Graph) (s : Node) (hpos : PosWeights g) :
    IsShortest g s s 0 :=
  ⟨Reach.refl g s, fun _ hw => hw.nonneg hpos⟩

theorem minIdxFold_spec (pq : List (Node × ℚ)) (hne : pq ≠ []) :
    minIdxFold pq < pq.length ∧
      ∀ i < pq.length, (pq.getD (minIdxFold pq) pqDefault).2 ≤ (pq.getD i pqDefault).2 := by
  have hlen : 1 ≤ pq.length := by
    cases pq with
    | nil => exact absurd rfl hne
    | cons e t => simp
  have hgen : ∀ (is : List ℕ) (b0 : ℕ), b0 < pq.length →
      (∀ i ∈ is, i < pq.length) →
      (is.foldl (fun best i =>
          if (pq.getD i pqDefault).2 < (pq.getD best pqDefault).2 then i else best) b0
        < pq.length) ∧
      ((pq.getD (is.foldl (fun best i =>
          if (pq.getD i pqDefault).2 < (pq.getD best pqDefault).2 then i else best) b0)
          pqDefault).2 ≤ (pq.getD b0 pqDefault).2) ∧
      (∀ i ∈ is, (pq.getD (is.foldl (fun best i =>
          if (pq.getD i pqDefault).2 < (pq.getD best pqDefault).2 then i else best) b0)
          pqDefault).2 ≤ (pq.getD i pqDefault).2) := by
    intro is
    induction is with
    | nil => intro b0 hb0 _; exact ⟨hb0, le_refl _, by simp⟩
    | cons j js ih =>
        intro b0 hb0 hall
        simp only [List.foldl_cons]
        have hj : j < pq.length := hall j (by simp)
        have hb1 : (if (pq.getD j pqDefault).2 < (pq.getD b0 pqDefault).2 then j else b0)
            < pq.length := by
          split
          · exact hj
          · exact hb0
        have hrec := ih _ hb1 (fun i hi => hall i (by simp [hi]))
        refine ⟨hrec.1, ?_, ?_⟩
        · refine le_trans hrec.2.1 ?_
          split
          · rename_i hlt
            exact le_of_lt hlt
          · exact le_refl _
        · intro i hi
          rcases List.mem_cons.mp hi with hi1 | hi1
          · subst hi1
            refine le_trans hrec.2.1 ?_
            split
            · exact le_refl _
            · rename_i hlt
              exact le_of_not_lt hlt
          · exact hrec.2.2 i hi1
  have hmem : ∀ i ∈ List.range' 1 (pq.length - 1), i < pq.length := by
    intro i hi
    have := List.mem_range'_1.mp hi
    omega
  have h := hgen (List.range' 1 (pq.length - 1)) 0 (by omega) hmem
  refine ⟨h.1, ?_⟩
  intro i hi
  rcases Nat.eq_zero_or_pos i with hi0 | hipos
  · subst hi0
    exact h.2.1
  · refine h.2.2 i ?_
    rw [List.mem_range'_1]
    omega

theorem mem_getD_index {α : Type} [Inhabited α] (l : List α) (d : α) (x : α)
    (h : x ∈ l) : ∃ i, i < l.length ∧ l.getD i d = x := by
  rcases List.mem_iff_getElem.mp h with ⟨i, hi, hx⟩
  exact ⟨i, hi, by rw [List.getD_eq_getElem l d hi]; exact hx⟩

theorem extractMin_spec (pq : List (Node × ℚ)) (hne : pq ≠ []) :
    pq.Perm ((extractMin pq).1 :: (extractMin pq).2) ∧
      (∀ x ∈ pq, ((extractMin pq).1).2 ≤ x.2) := by
  have hspec := minIdxFold_spec pq hne
  constructor
  · show pq.Perm ((pq.getD (minIdxFold pq) pqDefault) ::
      ((pq.set (minIdxFold pq) (pq.headD pqDefault)).drop 1))
    rcases pq with _ | ⟨h0, tl⟩
    · exact absurd rfl hne
    · cases hmc : minIdxFold (h0 :: tl) with
      | zero =>
          simp only [List.getD_cons_zero, List.headD_cons, List.set_cons_zero, List.drop_one,
            List.tail_cons]
          exact List.Perm.refl _
      | succ j =>
          have hjlen : j < tl.length := by
            have h1 := hspec.1
            rw [hmc] at h1
            simpa using h1
          simp only [List.getD_cons_succ, List.headD_cons, List.set_cons_succ, List.drop_one,
            List.tail_cons]
          rw [List.getD_eq_getElem tl pqDefault hjlen]
          rw [List.set_eq_take_cons_drop h0 hjlen]
          have htl : tl = tl.take j ++ tl[j] :: tl.drop (j + 1) := by
            conv_lhs => rw [← List.take_append_drop j tl]
            rw [List.drop_eq_getElem_cons hjlen]
          have e1 : h0 :: tl = h0 :: (tl.take j ++ tl[j] :: tl.drop (j + 1)) := by
            rw [← htl]
          rw [e1]
          have p2 : (h0 :: (tl.take j ++ tl[j] :: tl.drop (j + 1))).Perm
              (h0 :: (tl[j] :: (tl.take j ++ tl.drop (j + 1)))) :=
            List.Perm.cons h0 List.perm_middle
          have p3 : (h0 :: (tl[j] :: (tl.take j ++ tl.drop (j + 1)))).Perm
              (tl[j] :: (h0 :: (tl.take j ++ tl.drop (j + 1)))) :=
            List.Perm.swap tl[j] h0 _
          have p4 : (tl[j] :: (h0 :: (tl.take j ++ tl.drop (j + 1)))).Perm
              (tl[j] :: (tl.take j ++ h0 :: tl.drop (j + 1))) :=
            List.Perm.cons tl[j] List.perm_middle.symm
          exact (p2.trans p3).trans p4
  · intro x hx
    rcases mem_getD_index pq pqDefault x hx with ⟨i, hilen, hieq⟩
    have h1 := hspec.2 i hilen
    rw [hieq] at h1
    exact h1

theorem findV_coe_inj {m : List (Node × WithTop ℚ)} {v : Node} {q q' : ℚ}
    (h1 : findV m v = some ((q : ℚ) : WithTop ℚ))
    (h2 : findV m v = some ((q' : ℚ) : WithTop ℚ)) : q = q' := by
  rw [h1] at h2
  have h3 := Option.some.inj h2
  exact_mod_cast h3

theorem walk_lower_bound (g : Graph) (s t : Node) (st : DState)
    (hpos : PosWeights g) (hinv : LoopInv g s t st)
    (p : ℚ) (hmin : ∀ e ∈ st.pq, p ≤ e.2) :
    ∀ {wl : List Node} {x z : Node} {ω : ℚ}, IsWalk g wl x z ω →
      x ∈ st.visited → z ∉ st.visited →
      ∀ dx : ℚ, findV st.dist x = some ((dx : ℚ) : WithTop ℚ) →
        IsShortest g s x dx → p ≤ dx + ω := by
  intro wl x z ω hwalk
  induction hwalk with
  | single a =>
      intro hx hz
      exact absurd hx hz
  | step he hsub ih =>
      rename_i a b tz rest w wr
      intro hx hz dx hdx hshort
      by_cases hb : b ∈ st.visited
      · rcases hinv.vis_short b hb with ⟨db, hdb, hbshort⟩
        have hreach : Reach g s b (dx + w) := (hshort.1).extend he
        have hdb_le : db ≤ dx + w := hbshort.2 _ hreach
        have hih := ih hb hz db hdb hbshort
        linarith
      · rcases hinv.frontier a hx ⟨b, w⟩ he hb with ⟨q, du, hq, hdu, hle⟩
        have hdu_eq : du = dx := findV_coe_inj hdu hdx
        have hbs : b ≠ s := fun hbs => hb (hbs ▸ hinv.src_vis)
        have hmem := hinv.dist_pq b q hb hbs hq
        have hp : p ≤ q := hmin (b, q) hmem
        have hwr : 0 ≤ wr := hsub.weight_nonneg hpos
        simp only [] at hle
        linarith

theorem dequeue_shortest (g : Graph) (s t : Node) (st : DState)
    (hpos : PosWeights g) (hinv : LoopInv g s t st) (hne : st.pq ≠ [])
    (hcur : ((extractMin st.pq).1).1 ∉ st.visited) :
    IsShortest g s ((extractMin st.pq).1).1 ((extractMin st.pq).1).2 ∧
    findV st.dist ((extractMin st.pq).1).1 =
      some ((((extractMin st.pq).1).2 : ℚ) : WithTop ℚ) := by
  obtain ⟨hperm, hmin⟩ := extractMin_spec st.pq hne
  have hmem : (extractMin st.pq).1 ∈ st.pq := hperm.symm.subset (by simp)
  have hreach := hinv.pq_reach _ hmem
  have hsrc_dist : findV st.dist s = some (((0 : ℚ) : ℚ) : WithTop ℚ) := by
    have := hinv.core.src_dist
    simpa using this
  have hlower : ∀ w, Reach g s ((extractMin st.pq).1).1 w →
      ((extractMin st.pq).1).2 ≤ w := by
    intro w hw
    rcases hw with ⟨wl, hwl⟩
    have h0 := walk_lower_bound g s t st hpos hinv ((extractMin st.pq).1).2 hmin
      hwl hinv.src_vis hcur 0 hsrc_dist (IsShortest.source g s hpos)
    linarith
  have hshort : IsShortest g s ((extractMin st.pq).1).1 ((extractMin st.pq).1).2 :=
    ⟨hreach, hlower⟩
  refine ⟨hshort, ?_⟩
  have hs_ne : ((extractMin st.pq).1).1 ≠ s := fun h => hcur (h ▸ hinv.src_vis)
  rcases hinv.pq_dist _ hmem hcur with ⟨q, hq, hqle⟩
  rcases hinv.core.dshape _ _ hq with h1 | ⟨h1, _⟩ | ⟨q', h1, hpos', hreach'⟩
  · exact absurd h1 (by exact_mod_cast WithTop.coe_ne_top)
  · exact absurd h1 hs_ne
  · have hqq : q = q' := by exact_mod_cast h1
    subst hqq
    have h2 := hlower q hreach'
    have hq_eq : q = ((extractMin st.pq).1).2 := le_antisymm hqle h2
    rw [← hq_eq]
    exact hq

theorem top_ne_zero_wt : (⊤ : WithTop ℚ) ≠ 0 := by
  intro h
  exact absurd h.symm (by exact_mod_cast WithTop.coe_ne_top : ((0:ℚ) : WithTop ℚ) ≠ ⊤)

theorem jsOrInf_lt_iff (g : Graph) (s : Node) (dist : List (Node × WithTop ℚ))
    (hdshape : ∀ v d, findV dist v = some d →
      d = ⊤ ∨ (v = s ∧ d = 0) ∨ ∃ q : ℚ, d = ((q : ℚ) : WithTop ℚ) ∧ 0 < q ∧ Reach g s v q)
    (v : Node) (hvs : v ≠ s) (nd : ℚ) :
    (((nd : ℚ) : WithTop ℚ) < jsOrInfinity (findV dist v) →
      (∀ q : ℚ, findV dist v = some ((q : ℚ) : WithTop ℚ) → nd < q)) ∧
    (¬ (((nd : ℚ) : WithTop ℚ) < jsOrInfinity (findV dist v)) →
      ∃ q : ℚ, findV dist v = some ((q : ℚ) : WithTop ℚ) ∧ 0 < q ∧ q ≤ nd) := by
  cases hf : findV dist v with
  | none =>
      refine ⟨?_, ?_⟩
      · intro _ q hq
        simp [hf] at hq
      · intro hnot
        exact absurd (WithTop.coe_lt_top nd) hnot
  | some d =>
      rcases hdshape v d hf with h1 | ⟨h1, _⟩ | ⟨q0, h1, hq0, _⟩
      · subst h1
        refine ⟨?_, ?_⟩
        · intro _ q hq
          have h2 : (⊤ : WithTop ℚ) = ((q : ℚ) : WithTop ℚ) := Option.some.inj hq
          exact absurd h2.symm (by exact_mod_cast WithTop.coe_ne_top)
        · intro hnot
          exfalso
          refine hnot ?_
          have h3 : jsOrInfinity (some (⊤ : WithTop ℚ)) = ⊤ := by
            simp [jsOrInfinity, top_ne_zero_wt]
          rw [h3]
          exact WithTop.coe_lt_top nd
      · exact absurd h1 hvs
      · subst h1
        have hq0ne : q0 ≠ 0 := ne_of_gt hq0
        have hne0 : ((q0 : ℚ) : WithTop ℚ) ≠ 0 := by
          intro h
          exact hq0ne (by exact_mod_cast h)
        have hji : jsOrInfinity (some ((q0 : ℚ) : WithTop ℚ)) = ((q0 : ℚ) : WithTop ℚ) := by
          simp [jsOrInfinity, hne0]
        refine ⟨?_, ?_⟩
        · intro hlt q hq
          have h2 : ((q0 : ℚ) : WithTop ℚ) = ((q : ℚ) : WithTop ℚ) := Option.some.inj hq
          have h3 : q0 = q := by exact_mod_cast h2
          subst h3
          rw [hji] at hlt
          exact_mod_cast hlt
        · intro hnot
          rw [hji] at hnot
          exact ⟨q0, rfl, hq0, by exact_mod_cast not_lt.mp hnot⟩

theorem frontier_target_update (dist : List (Node × WithTop ℚ)) (v : Node) (nd : ℚ)
    (han : ∀ q : ℚ, findV dist v = some ((q : ℚ) : WithTop ℚ) → nd < q)
    (x : Node) (q : ℚ) (hq : findV dist x = some ((q : ℚ) : WithTop ℚ)) :
    ∃ q2 : ℚ, findV (setV dist v ((nd : ℚ) : WithTop ℚ)) x = some ((q2 : ℚ) : WithTop ℚ) ∧
      q2 ≤ q := by
  by_cases hxv : x = v
  · subst hxv
    exact ⟨nd, findV_setV_self dist x _, le_of_lt (han q hq)⟩
  · refine ⟨q, ?_, le_refl q⟩
    rw [findV_setV_ne dist v x _ hxv]
    exact hq

theorem relaxEdges_inv (g : Graph) (s cur : Node) (cd : ℚ) (V : List Node)
    (hpos : PosWeights g) :
    ∀ (rem : List Edge) (dist : List (Node × WithTop ℚ))
      (pred : List (Node × Option Node)) (pq : List (Node × ℚ)),
      RInv g s cur cd V rem dist pred pq →
      RInv g s cur cd V []
        (relaxEdges cur cd (cur :: V) rem (dist, pred, pq)).1
        (relaxEdges cur cd (cur :: V) rem (dist, pred, pq)).2.1
        (relaxEdges cur cd (cur :: V) rem (dist, pred, pq)).2.2 := by
  intro rem
  induction rem with
  | nil =>
      intro dist pred pq hinv
      simpa [relaxEdges] using hinv
  | cons e es ih =>
      intro dist pred pq hinv
      have hE : e ∈ edgesOf g cur := hinv.rem_sub e (by simp)
      have hsub2 : ∀ x ∈ es, x ∈ edgesOf g cur :=
        fun x hx => hinv.rem_sub x (by simp [hx])
      by_cases hvis : e.target ∈ cur :: V
      · have hred : relaxEdges cur cd (cur :: V) (e :: es) (dist, pred, pq) =
            relaxEdges cur cd (cur :: V) es (dist, pred, pq) := by
          simp [relaxEdges, hvis]
        rw [hred]
        refine ih dist pred pq ?_
        refine ⟨hinv.core, hinv.src_vis, hsub2, hinv.cur_dist, hinv.cur_short,
          hinv.pq_reach, hinv.pq_dist, hinv.dist_pq, hinv.vis_short, ?_⟩
        intro u hu tw htw htarg hguard
        by_cases hte : tw = e
        · subst hte
          exact absurd hvis htarg
        · refine hinv.frontier u hu tw htw htarg ?_
          intro huc
          have := hguard huc
          simp [hte, this]
      · have hvs : e.target ≠ s := fun h => hvis (h ▸ hinv.src_vis)
        have hcv : cur ≠ e.target := fun h => hvis (h ▸ (by simp : cur ∈ cur :: V))
        have hw_pos : 0 < e.weight := hpos.edge hE
        have hcd_nonneg : 0 ≤ cd := hinv.cur_short.1.nonneg hpos
        have hE2 : (⟨e.target, e.weight⟩ : Edge) ∈ edgesOf g cur := hE
        have hreach : Reach g s e.target (cd + e.weight) :=
          hinv.cur_short.1.extend hE2
        by_cases hlt :
            (((cd + e.weight : ℚ) : WithTop ℚ) < jsOrInfinity (findV dist e.target))
        · have hred : relaxEdges cur cd (cur :: V) (e :: es) (dist, pred, pq) =
              relaxEdges cur cd (cur :: V) es
                (setV dist e.target (((cd + e.weight : ℚ) : ℚ) : WithTop ℚ),
                 setV pred e.target (some cur),
                 pq ++ [(e.target, cd + e.weight)]) := by
            simp only [relaxEdges, if_neg hvis, if_pos hlt]
          rw [hred]
          have han := (jsOrInf_lt_iff g s dist hinv.core.dshape e.target hvs
            (cd + e.weight)).1 hlt
          refine ih _ _ _ ?_
          refine ⟨?_, hinv.src_vis, hsub2, ?_, hinv.cur_short, ?_, ?_, ?_, ?_, ?_⟩
          · refine ⟨nodup_keys_setV _ _ hinv.core.dist_nodup, ?_, ?_, ?_, ?_, ?_⟩
            · rw [findV_setV_ne dist e.target s _ (Ne.symm hvs)]
              exact hinv.core.src_dist
            · intro x d hx
              by_cases hxv : x = e.target
              · subst hxv
                rw [findV_setV_self] at hx
                have hd := Option.some.inj hx
                refine Or.inr (Or.inr ⟨cd + e.weight, hd.symm, by linarith, hreach⟩)
              · rw [findV_setV_ne dist e.target x _ hxv] at hx
                exact hinv.core.dshape x d hx
            · intro x u hx
              by_cases hxv : x = e.target
              · subst hxv
                rw [findV_setV_self] at hx
                have hu : u = cur := by
                  have h9 := Option.some.inj hx
                  exact (Option.some.inj h9).symm
                rw [hu]
                refine ⟨e.weight, cd + e.weight, cd, hE2, findV_setV_self _ _ _, ?_, rfl,
                  by simp⟩
                rw [findV_setV_ne dist e.target cur _ hcv]
                exact hinv.cur_dist
              · rw [findV_setV_ne pred e.target x _ hxv] at hx
                rcases hinv.core.pred_ok x u hx with ⟨w, q, du, h1, h2, h3, h4, h5⟩
                have huv : u ≠ e.target := fun h => hvis (h ▸ h5)
                refine ⟨w, q, du, h1, ?_, ?_, h4, h5⟩
                · rw [findV_setV_ne dist e.target x _ hxv]; exact h2
                · rw [findV_setV_ne dist e.target u _ huv]; exact h3
            · intro x q hx hxs
              by_cases hxv : x = e.target
              · subst hxv
                exact ⟨cur, findV_setV_self _ _ _⟩
              · rw [findV_setV_ne dist e.target x _ hxv] at hx
                rcases hinv.core.pred_fin x q hx hxs with ⟨u, hu⟩
                exact ⟨u, by rw [findV_setV_ne pred e.target x _ hxv]; exact hu⟩
            · intro u
              rw [findV_setV_ne pred e.target s _ (Ne.symm hvs)]
              exact hinv.core.pred_src u
          · rw [findV_setV_ne dist e.target cur _ hcv]
            exact hinv.cur_dist
          · intro x hx
            rcases List.mem_append.mp hx with h1 | h1
            · exact hinv.pq_reach x h1
            · have : x = (e.target, cd + e.weight) := by simpa using h1
              rw [this]
              exact hreach
          · intro x hx hxnv
            rcases List.mem_append.mp hx with h1 | h1
            · rcases hinv.pq_dist x h1 hxnv with ⟨q, hq, hqle⟩
              rcases frontier_target_update dist e.target (cd + e.weight) han x.1 q hq
                with ⟨q2, hq2, hq2le⟩
              exact ⟨q2, hq2, le_trans hq2le hqle⟩
            · have hx1 : x = (e.target, cd + e.weight) := by simpa using h1
              rw [hx1]
              exact ⟨cd + e.weight, findV_setV_self _ _ _, le_refl _⟩
          · intro x q hxnv hxs hx
            by_cases hxv : x = e.target
            · subst hxv
              rw [findV_setV_self] at hx
              have hq : ((cd + e.weight : ℚ) : WithTop ℚ) = ((q : ℚ) : WithTop ℚ) :=
                Option.some.inj hx
              have hq2 : cd + e.weight = q := by exact_mod_cast hq
              rw [← hq2]
              simp
            · rw [findV_setV_ne dist e.target x _ hxv] at hx
              exact List.mem_append_left _ (hinv.dist_pq x q hxnv hxs hx)
          · intro x hx
            have hxv : x ≠ e.target := fun h => hvis (h ▸ hx)
            rcases hinv.vis_short x hx with ⟨q, hq, hqs⟩
            refine ⟨q, ?_, hqs⟩
            rw [findV_setV_ne dist e.target x _ hxv]
            exact hq
          · intro u hu tw htw htarg hguard
            have huv : u ≠ e.target := fun h => hvis (h ▸ hu)
            by_cases huc : u = cur
            · subst huc
              have htwes : tw ∉ es := hguard rfl
              by_cases hte : tw = e
              · subst hte
                refine ⟨cd + tw.weight, cd, findV_setV_self _ _ _, ?_, le_refl _⟩
                rw [findV_setV_ne dist tw.target u _ hcv]
                exact hinv.cur_dist
              · rcases hinv.frontier u hu tw htw htarg
                  (fun _ => by simp [hte, htwes]) with ⟨q, du, hq, hdu, hle⟩
                rcases frontier_target_update dist e.target (cd + e.weight) han
                  tw.target q hq with ⟨q2, hq2, hq2le⟩
                refine ⟨q2, du, hq2, ?_, by linarith⟩
                rw [findV_setV_ne dist e.target u _ huv]
                exact hdu
            · rcases hinv.frontier u hu tw htw htarg (fun h => absurd h huc)
                with ⟨q, du, hq, hdu, hle⟩
              rcases frontier_target_update dist e.target (cd + e.weight) han
                tw.target q hq with ⟨q2, hq2, hq2le⟩
              refine ⟨q2, du, hq2, ?_, by linarith⟩
              rw [findV_setV_ne dist e.target u _ huv]
              exact hdu
        · have hred : relaxEdges cur cd (cur :: V) (e :: es) (dist, pred, pq) =
              relaxEdges cur cd (cur :: V) es (dist, pred, pq) := by
            simp only [relaxEdges, if_neg hvis, if_neg hlt]
          rw [hred]
          have han := (jsOrInf_lt_iff g s dist hinv.core.dshape e.target hvs
            (cd + e.weight)).2 hlt
          refine ih dist pred pq ?_
          refine ⟨hinv.core, hinv.src_vis, hsub2, hinv.cur_dist, hinv.cur_short,
            hinv.pq_reach, hinv.pq_dist, hinv.dist_pq, hinv.vis_short, ?_⟩
          intro u hu tw htw htarg hguard
          by_cases huc : u = cur
          · subst huc
            have htwes : tw ∉ es := hguard rfl
            by_cases hte : tw = e
            · subst hte
              rcases han with ⟨q, hq, _, hqle⟩
              exact ⟨q, cd, hq, hinv.cur_dist, by linarith⟩
            · exact hinv.frontier u hu tw htw htarg (fun _ => by simp [hte, htwes])
          · exact hinv.frontier u hu tw htw htarg (fun h => absurd h huc)

theorem CoreInv_weaken {g : Graph} {s : Node} {dist : List (Node × WithTop ℚ)}
    {pred : List (Node × Option Node)} {vis vis2 : List Node}
    (h : CoreInv g s dist pred vis) (hsub : ∀ x ∈ vis, x ∈ vis2) :
    CoreInv g s dist pred vis2 := by
  refine ⟨h.dist_nodup, h.src_dist, h.dshape, ?_, h.pred_fin, h.pred_src⟩
  intro v u hv
  rcases h.pred_ok v u hv with ⟨w, q, du, h1, h2, h3, h4, h5⟩
  exact ⟨w, q, du, h1, h2, h3, h4, hsub u h5⟩

theorem extractMin_length {pq : List (Node × ℚ)} (hne : pq ≠ []) :
    pq.length = (extractMin pq).2.length + 1 := by
  have hperm := (extractMin_spec pq hne).1
  have := hperm.length_eq
  simpa using this

theorem extractMin_mem_rest {pq : List (Node × ℚ)} (hne : pq ≠ []) {x : Node × ℚ}
    (hx : x ∈ (extractMin pq).2) : x ∈ pq :=
  (extractMin_spec pq hne).1.symm.subset (List.mem_cons_of_mem _ hx)

theorem mem_extractMin_cases {pq : List (Node × ℚ)} (hne : pq ≠ []) {x : Node × ℚ}
    (hx : x ∈ pq) : x = (extractMin pq).1 ∨ x ∈ (extractMin pq).2 := by
  have hperm := (extractMin_spec pq hne).1
  have := hperm.subset hx
  simpa using this

theorem RInv_start (g : Graph) (s t : Node) (st : DState)
    (hpos : PosWeights g) (hinv : LoopInv g s t st) (hne : st.pq ≠ [])
    (hcur : ((extractMin st.pq).1).1 ∉ st.visited) :
    RInv g s ((extractMin st.pq).1).1 ((extractMin st.pq).1).2 st.visited
      (edgesOf g ((extractMin st.pq).1).1) st.dist st.pred (extractMin st.pq).2 := by
  obtain ⟨hshort, hdist⟩ := dequeue_shortest g s t st hpos hinv hne hcur
  refine ⟨CoreInv_weaken hinv.core (fun x hx => List.mem_cons_of_mem _ hx),
    List.mem_cons_of_mem _ hinv.src_vis, fun e he => he, hdist, hshort, ?_, ?_, ?_, ?_, ?_⟩
  · intro e he
    exact hinv.pq_reach e (extractMin_mem_rest hne he)
  · intro e he hnv
    exact hinv.pq_dist e (extractMin_mem_rest hne he)
      (fun hm => hnv (List.mem_cons_of_mem _ hm))
  · intro v q hnv hvs hv
    have hv1 : v ≠ ((extractMin st.pq).1).1 := fun h => hnv (h ▸ (by simp))
    have hv2 : v ∉ st.visited := fun hm => hnv (List.mem_cons_of_mem _ hm)
    have hm := hinv.dist_pq v q hv2 hvs hv
    rcases mem_extractMin_cases hne hm with h1 | h1
    · exact absurd (congrArg Prod.fst h1) hv1
    · exact h1
  · intro v hv
    rcases List.mem_cons.mp hv with h1 | h1
    · subst h1
      exact ⟨((extractMin st.pq).1).2, hdist, hshort⟩
    · exact hinv.vis_short v h1
  · intro u hu tw htw htarg hguard
    by_cases huc : u = ((extractMin st.pq).1).1
    · rw [huc] at htw
      exact absurd htw (hguard huc)
    · have hu2 : u ∈ st.visited := by
        rcases List.mem_cons.mp hu with h1 | h1
        · exact absurd h1 huc
        · exact h1
      exact hinv.frontier u hu2 tw htw
        (fun hm => htarg (List.mem_cons_of_mem _ hm))

theorem LoopInv_of_RInv (g : Graph) (s t cur : Node) (cd : ℚ) (V : List Node)
    (dist : List (Node × WithTop ℚ)) (pred : List (Node × Option Node))
    (pq : List (Node × ℚ))
    (hinv : RInv g s cur cd V [] dist pred pq)
    (hct : cur ≠ t) (htV : t ∉ V) :
    LoopInv g s t ⟨dist, pred, cur :: V, pq⟩ := by
  refine ⟨hinv.core, hinv.src_vis, ?_, hinv.pq_reach, hinv.pq_dist, hinv.dist_pq,
    hinv.vis_short, ?_⟩
  · intro hm
    rcases List.mem_cons.mp hm with h1 | h1
    · exact hct h1.symm
    · exact htV h1
  · intro u hu tw htw htarg
    exact hinv.frontier u hu tw htw htarg (fun _ => List.not_mem_nil tw)

theorem LoopInv_skip (g : Graph) (s t : Node) (st : DState)
    (hinv : LoopInv g s t st) (hne : st.pq ≠ [])
    (hcur : ((extractMin st.pq).1).1 ∈ st.visited) :
    LoopInv g s t { st with pq := (extractMin st.pq).2 } := by
  refine ⟨hinv.core, hinv.src_vis, hinv.t_novis, ?_, ?_, ?_, hinv.vis_short, hinv.frontier⟩
  · intro e he
    exact hinv.pq_reach e (extractMin_mem_rest hne he)
  · intro e he hnv
    exact hinv.pq_dist e (extractMin_mem_rest hne he) hnv
  · intro v q hnv hvs hv
    have hm := hinv.dist_pq v q hnv hvs hv
    rcases mem_extractMin_cases hne hm with h1 | h1
    · have h2 : v = ((extractMin st.pq).1).1 := congrArg Prod.fst h1
      exact absurd (h2 ▸ hcur) hnv
    · exact h1

theorem uw_nil_eq (g : Graph) : unvisitedWeight g [] = graphWeight g := by
  induction g with
  | nil => simp [unvisitedWeight, graphWeight]
  | cons e tl ih =>
      simp only [unvisitedWeight, graphWeight, List.map_cons, List.sum_cons]
      rw [if_neg (List.not_mem_nil e.1)]
      unfold graphWeight at ih
      omega

theorem uw_mono_cons (g : Graph) (x : Node) (visited : List Node) :
    unvisitedWeight g (x :: visited) ≤ unvisitedWeight g visited := by
  induction g with
  | nil => simp [unvisitedWeight]
  | cons e tl ih =>
      simp only [unvisitedWeight]
      by_cases h1 : e.1 ∈ visited
      · rw [if_pos h1, if_pos (List.mem_cons_of_mem _ h1)]
        omega
      · rw [if_neg h1]
        by_cases h2 : e.1 ∈ x :: visited
        · rw [if_pos h2]
          omega
        · rw [if_neg h2]
          omega

theorem uw_cons_lt (g : Graph) (cur : Node) (visited : List Node) (es : List Edge)
    (hf : findV g cur = some es) (hnv : cur ∉ visited) :
    unvisitedWeight g (cur :: visited) + es.length + 1 ≤ unvisitedWeight g visited := by
  induction g with
  | nil => simp [findV] at hf
  | cons e tl ih =>
      simp only [unvisitedWeight]
      by_cases h1 : e.1 = cur
      · rw [findV, if_pos h1] at hf
        have hes : e.2 = es := Option.some.inj hf
        have h2 : e.1 ∉ visited := h1 ▸ hnv
        have h3 : e.1 ∈ cur :: visited := by simp [h1]
        rw [if_pos h3, if_neg h2, hes]
        have h4 := uw_mono_cons tl cur visited
        omega
      · rw [findV, if_neg h1] at hf
        have hih := ih hf
        by_cases h2 : e.1 ∈ visited
        · rw [if_pos h2, if_pos (List.mem_cons_of_mem _ h2)]
          omega
        · have h3 : e.1 ∉ cur :: visited := by
            intro hm
            rcases List.mem_cons.mp hm with hx | hx
            · exact h1 hx
            · exact h2 hx
          rw [if_neg h2, if_neg h3]
          omega

theorem relaxEdges_pq_length (cur : Node) (cd : ℚ) (vis : List Node) :
    ∀ (rem : List Edge) (dist : List (Node × WithTop ℚ))
      (pred : List (Node × Option Node)) (pq : List (Node × ℚ)),
      (relaxEdges cur cd vis rem (dist, pred, pq)).2.2.length ≤ pq.length + rem.length := by
  intro rem
  induction rem with
  | nil =>
      intro dist pred pq
      simp [relaxEdges]
  | cons e es ih =>
      intro dist pred pq
      by_cases hvis : e.target ∈ vis
      · have hred : relaxEdges cur cd vis (e :: es) (dist, pred, pq) =
            relaxEdges cur cd vis es (dist, pred, pq) := by
          simp only [relaxEdges, if_pos hvis]
        rw [hred]
        have h9 := ih dist pred pq
        simp only [List.length_cons]
        omega
      · by_cases hlt :
            (((cd + e.weight : ℚ) : WithTop ℚ) < jsOrInfinity (findV dist e.target))
        · have hred : relaxEdges cur cd vis (e :: es) (dist, pred, pq) =
              relaxEdges cur cd vis es
                (setV dist e.target (((cd + e.weight : ℚ) : ℚ) : WithTop ℚ),
                 setV pred e.target (some cur),
                 pq ++ [(e.target, cd + e.weight)]) := by
            simp only [relaxEdges, if_neg hvis, if_pos hlt]
          rw [hred]
          have h9 := ih (setV dist e.target (((cd + e.weight : ℚ) : ℚ) : WithTop ℚ))
            (setV pred e.target (some cur)) (pq ++ [(e.target, cd + e.weight)])
          have h10 : (pq ++ [(e.target, cd + e.weight)]).length = pq.length + 1 := by
            simp
          rw [h10] at h9
          simp only [List.length_cons]
          omega
        · have hred : relaxEdges cur cd vis (e :: es) (dist, pred, pq) =
              relaxEdges cur cd vis es (dist, pred, pq) := by
            simp only [relaxEdges, if_neg hvis, if_neg hlt]
          rw [hred]
          have h9 := ih dist pred pq
          simp only [List.length_cons]
          omega

theorem dloop_succ_eq (g : Graph) (t : Node) (f : ℕ) (d : List (Node × WithTop ℚ))
    (p : List (Node × Option Node)) (v : List Node) (h0 : Node × ℚ)
    (tl : List (Node × ℚ)) :
    dloop g t (f + 1) ⟨d, p, v, h0 :: tl⟩ =
      (if ((extractMin (h0 :: tl)).1).1 ∈ v then
        dloop g t f ⟨d, p, v, (extractMin (h0 :: tl)).2⟩
      else if ((extractMin (h0 :: tl)).1).1 = t then
        some ⟨d, p, ((extractMin (h0 :: tl)).1).1 :: v, (extractMin (h0 :: tl)).2⟩
      else
        dloop g t f
          ⟨(relaxEdges ((extractMin (h0 :: tl)).1).1 ((extractMin (h0 :: tl)).1).2
              (((extractMin (h0 :: tl)).1).1 :: v) (edgesOf g ((extractMin (h0 :: tl)).1).1)
              (d, p, (extractMin (h0 :: tl)).2)).1,
           (relaxEdges ((extractMin (h0 :: tl)).1).1 ((extractMin (h0 :: tl)).1).2
              (((extractMin (h0 :: tl)).1).1 :: v) (edgesOf g ((extractMin (h0 :: tl)).1).1)
              (d, p, (extractMin (h0 :: tl)).2)).2.1,
           ((extractMin (h0 :: tl)).1).1 :: v,
           (relaxEdges ((extractMin (h0 :: tl)).1).1 ((extractMin (h0 :: tl)).1).2
              (((extractMin (h0 :: tl)).1).1 :: v) (edgesOf g ((extractMin (h0 :: tl)).1).1)
              (d, p, (extractMin (h0 :: tl)).2)).2.2⟩) := rfl

theorem dloop_master (g : Graph) (s t : Node) (hpos : PosWeights g) :
    ∀ (fuel : ℕ) (st : DState), LoopInv g s t st → mu g st ≤ fuel →
      ∃ fin, dloop g t fuel st = some fin ∧
        CoreInv g s fin.dist fin.pred fin.visited ∧
        ((∃ dt : ℚ, findV fin.dist t = some ((dt : ℚ) : WithTop ℚ) ∧
            IsShortest g s t dt) ∨
         (fin.pq = [] ∧ LoopInv g s t fin)) := by
  intro fuel
  induction fuel with
  | zero =>
      intro st hinv hmu
      have hpq : st.pq = [] := by
        have : st.pq.length = 0 := by
          unfold mu at hmu
          omega
        exact List.length_eq_zero.mp this
      refine ⟨st, ?_, hinv.core, Or.inr ⟨hpq, hinv⟩⟩
      obtain ⟨d, p, v, pq⟩ := st
      simp only [] at hpq
      subst hpq
      rfl
  | succ f ih =>
      intro st hinv hmu
      obtain ⟨d, p, v, pq⟩ := st
      cases hpq : pq with
      | nil =>
          subst hpq
          exact ⟨⟨d, p, v, []⟩, rfl, hinv.core, Or.inr ⟨rfl, hinv⟩⟩
      | cons h0 tl =>
          subst hpq
          have hne : (⟨d, p, v, h0 :: tl⟩ : DState).pq ≠ [] := by simp
          have hlen0 : (h0 :: tl).length = (extractMin (h0 :: tl)).2.length + 1 :=
            extractMin_length hne
          rw [dloop_succ_eq]
          by_cases hvis : ((extractMin (h0 :: tl)).1).1 ∈ v
          · rw [if_pos hvis]
            have hli := LoopInv_skip g s t ⟨d, p, v, h0 :: tl⟩ hinv hne hvis
            refine ih ⟨d, p, v, (extractMin (h0 :: tl)).2⟩ hli ?_
            unfold mu at hmu ⊢
            simp only [] at hmu ⊢
            omega
          · rw [if_neg hvis]
            by_cases hct : ((extractMin (h0 :: tl)).1).1 = t
            · rw [if_pos hct]
              obtain ⟨hshort, hdist⟩ :=
                dequeue_shortest g s t ⟨d, p, v, h0 :: tl⟩ hpos hinv hne hvis
              refine ⟨_, rfl, ?_, Or.inl ⟨((extractMin (h0 :: tl)).1).2, ?_, ?_⟩⟩
              · exact CoreInv_weaken hinv.core (fun x hx => List.mem_cons_of_mem _ hx)
              · rw [← hct]
                exact hdist
              · rw [← hct]
                exact hshort
            · rw [if_neg hct]
              have hri := RInv_start g s t ⟨d, p, v, h0 :: tl⟩ hpos hinv hne hvis
              have hri2 := relaxEdges_inv g s ((extractMin (h0 :: tl)).1).1
                ((extractMin (h0 :: tl)).1).2 v hpos
                (edgesOf g ((extractMin (h0 :: tl)).1).1) d p
                (extractMin (h0 :: tl)).2 hri
              have hli := LoopInv_of_RInv g s t ((extractMin (h0 :: tl)).1).1
                ((extractMin (h0 :: tl)).1).2 v _ _ _ hri2 hct hinv.t_novis
              refine ih _ hli ?_
              have hrl := relaxEdges_pq_length ((extractMin (h0 :: tl)).1).1
                ((extractMin (h0 :: tl)).1).2 (((extractMin (h0 :: tl)).1).1 :: v)
                (edgesOf g ((extractMin (h0 :: tl)).1).1) d p (extractMin (h0 :: tl)).2
              cases hfg : findV g ((extractMin (h0 :: tl)).1).1 with
              | none =>
                  have hE : edgesOf g ((extractMin (h0 :: tl)).1).1 = [] := by
                    unfold edgesOf
                    rw [hfg]
                    rfl
                  rw [hE] at hrl
                  simp only [List.length_nil] at hrl
                  have hmono := uw_mono_cons g ((extractMin (h0 :: tl)).1).1 v
                  unfold mu at hmu ⊢
                  simp only [] at hmu ⊢
                  rw [hE]
                  omega
              | some es =>
                  have hE : edgesOf g ((extractMin (h0 :: tl)).1).1 = es := by
                    unfold edgesOf
                    rw [hfg]
                    rfl
                  rw [hE] at hrl
                  have hcl := uw_cons_lt g ((extractMin (h0 :: tl)).1).1 v es hfg hvis
                  unfold mu at hmu ⊢
                  simp only [] at hmu ⊢
                  rw [hE]
                  omega

theorem initDist_fold_top (g : Graph) :
    ∀ (m : List (Node × WithTop ℚ)),
      (∀ w d, findV m w = some d → d = ⊤) →
      ∀ w d, findV (g.foldl (fun m e => setV m e.1 (⊤ : WithTop ℚ)) m) w = some d →
        d = ⊤ := by
  induction g with
  | nil => intro m hm w d h; exact hm w d h
  | cons e gs ih =>
      intro m hm w d h
      refine ih _ ?_ w d h
      intro w2 d2 h2
      by_cases hw : w2 = e.1
      · subst hw
        rw [findV_setV_self] at h2
        exact (Option.some.inj h2).symm
      · rw [findV_setV_ne _ _ _ _ hw] at h2
        exact hm w2 d2 h2

theorem initDist_shape (g : Graph) (s : Node) (v : Node) (d : WithTop ℚ)
    (h : findV (initDist g s) v = some d) : d = ⊤ ∨ (v = s ∧ d = 0) := by
  by_cases hvs : v = s
  · subst hvs
    rw [findV_initDist_source] at h
    exact Or.inr ⟨rfl, (Option.some.inj h).symm⟩
  · unfold initDist at h
    rw [findV_setV_ne _ _ _ _ hvs] at h
    exact Or.inl (initDist_fold_top g [] (by intro w d2 h2; simp [findV] at h2) v d h)

theorem initDist_nodup (g : Graph) (s : Node) :
    ((initDist g s).map Prod.fst).Nodup := by
  unfold initDist
  apply nodup_keys_setV
  have hgen : ∀ (gs : Graph) (m : List (Node × WithTop ℚ)),
      (m.map Prod.fst).Nodup →
      (((gs.foldl (fun m e => setV m e.1 (⊤ : WithTop ℚ)) m)).map Prod.fst).Nodup := by
    intro gs
    induction gs with
    | nil => intro m hm; exact hm
    | cons e tl ih =>
        intro m hm
        exact ih _ (nodup_keys_setV _ _ hm)
  exact hgen g [] (by simp)

theorem RInv_init (g : Graph) (s : Node) (hpos : PosWeights g) :
    RInv g s s 0 [] (edgesOf g s) (initDist g s) (initPred g) [] := by
  have hsrc : findV (initDist g s) s = some (((0 : ℚ) : ℚ) : WithTop ℚ) := by
    have h1 := findV_initDist_source g s
    simpa using h1
  have hnofin : ∀ v (q : ℚ), v ≠ s →
      findV (initDist g s) v ≠ some ((q : ℚ) : WithTop ℚ) := by
    intro v q hvs h
    rcases initDist_shape g s v _ h with h1 | ⟨h1, _⟩
    · exact absurd h1 (by exact_mod_cast WithTop.coe_ne_top)
    · exact hvs h1
  refine ⟨?_, by simp, fun e he => he, hsrc, IsShortest.source g s hpos,
    ?_, ?_, ?_, ?_, ?_⟩
  · refine ⟨initDist_nodup g s, findV_initDist_source g s, ?_, ?_, ?_, ?_⟩
    · intro v d h
      rcases initDist_shape g s v d h with h1 | h1
      · exact Or.inl h1
      · exact Or.inr (Or.inl h1)
    · intro v u h
      have h2 := initPred_values g v _ h
      simp at h2
    · intro v q h hvs
      exact absurd h (hnofin v q hvs)
    · intro u h
      have h2 := initPred_values g s _ h
      simp at h2
  · intro e he
    simp at he
  · intro e he
    simp at he
  · intro v q hnv hvs h
    exact absurd h (hnofin v q hvs)
  · intro v hv
    have hvs : v = s := by simpa using hv
    rw [hvs]
    exact ⟨0, hsrc, IsShortest.source g s hpos⟩
  · intro u hu tw htw htarg hguard
    have hus : u = s := by simpa using hu
    rw [hus] at htw
    exact absurd htw (hguard hus)

theorem extractMin_singleton (s : Node) : extractMin [(s, (0 : ℚ))] = ((s, 0), []) := rfl

theorem dloop_init (g : Graph) (s t : Node) (hpos : PosWeights g) (hst : s ≠ t) :
    ∃ fin, dloop g t (dijkstraFuel g)
        ⟨initDist g s, initPred g, [], [(s, 0)]⟩ = some fin ∧
      CoreInv g s fin.dist fin.pred fin.visited ∧
      ((∃ dt : ℚ, findV fin.dist t = some ((dt : ℚ) : WithTop ℚ) ∧
          IsShortest g s t dt) ∨
       (fin.pq = [] ∧ LoopInv g s t fin)) := by
  have hfuel : dijkstraFuel g = 2 * graphWeight g + 1 := rfl
  rw [hfuel]
  rw [dloop_succ_eq]
  rw [extractMin_singleton]
  simp only [List.not_mem_nil, if_false]
  rw [if_neg hst]
  have hri := RInv_init g s hpos
  have hri2 := relaxEdges_inv g s s 0 [] hpos (edgesOf g s) (initDist g s) (initPred g) [] hri
  have hli := LoopInv_of_RInv g s t s 0 [] _ _ _ hri2 hst (List.not_mem_nil t)
  refine dloop_master g s t hpos (2 * graphWeight g) _ hli ?_
  have hrl := relaxEdges_pq_length s 0 [s] (edgesOf g s) (initDist g s) (initPred g) []
  cases hfg : findV g s with
  | none =>
      have hE : edgesOf g s = [] := by
        unfold edgesOf
        rw [hfg]
        rfl
      rw [hE] at hrl
      simp only [List.length_nil] at hrl
      have hmono := uw_mono_cons g s []
      have hnil := uw_nil_eq g
      unfold mu
      simp only []
      rw [hE]
      omega
  | some es =>
      have hE : edgesOf g s = es := by
        unfold edgesOf
        rw [hfg]
        rfl
      rw [hE] at hrl
      simp only [List.length_nil] at hrl
      have hcl := uw_cons_lt g s [] es hfg (List.not_mem_nil s)
      have hnil := uw_nil_eq g
      unfold mu
      simp only []
      rw [hE]
      omega

theorem walk_crossing (g : Graph) (vis : List Node) :
    ∀ {wl : List Node} {x z : Node} {ω : ℚ}, IsWalk g wl x z ω →
      x ∈ vis → z ∉ vis →
      ∃ u b w2, u ∈ vis ∧ b ∉ vis ∧ (⟨b, w2⟩ : Edge) ∈ edgesOf g u := by
  intro wl x z ω hwalk
  induction hwalk with
  | single a =>
      intro hx hz
      exact absurd hx hz
  | step he hsub ih =>
      rename_i a b tz rest w wr
      intro hx hz
      by_cases hb : b ∈ vis
      · exact ih hb hz
      · exact ⟨a, b, w, hx, hb, he⟩

theorem exhausted_unreachable (g : Graph) (s t : Node) (st : DState)
    (hinv : LoopInv g s t st) (hpq : st.pq = []) :
    ∀ w, ¬ Reach g s t w := by
  intro w hw
  rcases hw with ⟨wl, hwl⟩
  rcases walk_crossing g st.visited hwl hinv.src_vis hinv.t_novis with
    ⟨u, b, w2, hu, hb, he⟩
  rcases hinv.frontier u hu ⟨b, w2⟩ he hb with ⟨q, du, hq, _, _⟩
  have hbs : b ≠ s := fun h => hb (h ▸ hinv.src_vis)
  have hmem := hinv.dist_pq b q hb hbs hq
  rw [hpq] at hmem
  simp at hmem

theorem countBelow_le_length (dist : List (Node × WithTop ℚ)) (x : ℚ) :
    countBelow dist x ≤ dist.length := List.countP_le_length _

theorem countBelow_mono (dist : List (Node × WithTop ℚ)) (a b : ℚ) (hab : a ≤ b) :
    countBelow dist a ≤ countBelow dist b := by
  induction dist with
  | nil => exact le_refl 0
  | cons e tl ih =>
      unfold countBelow at ih ⊢
      rw [List.countP_cons, List.countP_cons]
      by_cases h1 : e.2 < ((a : ℚ) : WithTop ℚ)
      · have h2 : e.2 < ((b : ℚ) : WithTop ℚ) :=
          lt_of_lt_of_le h1 (by exact_mod_cast hab)
        simp only [h1, h2, decide_eq_true_eq, if_pos]
        omega
      · have h3 : (if decide (e.2 < ((a : ℚ) : WithTop ℚ)) = true then 1 else 0) = 0 := by
          simp [h1]
        rw [h3]
        have h4 : (0 : ℕ) ≤ (if decide (e.2 < ((b : ℚ) : WithTop ℚ)) = true then 1 else 0) := by
          omega
        omega

theorem countBelow_strict (dist : List (Node × WithTop ℚ)) (u : Node) (du dv : ℚ)
    (hmem : (u, ((du : ℚ) : WithTop ℚ)) ∈ dist) (hlt : du < dv) :
    countBelow dist du < countBelow dist dv := by
  induction dist with
  | nil => simp at hmem
  | cons e tl ih =>
      unfold countBelow at ih ⊢
      rw [List.countP_cons, List.countP_cons]
      rcases List.mem_cons.mp hmem with h1 | h1
      · have he2 : e.2 = ((du : ℚ) : WithTop ℚ) := by rw [← h1]
        have hna : ¬ (e.2 < ((du : ℚ) : WithTop ℚ)) := by
          rw [he2]
          exact lt_irrefl _
        have hyb : e.2 < ((dv : ℚ) : WithTop ℚ) := by
          rw [he2]
          exact_mod_cast hlt
        have hmono := countBelow_mono tl du dv (le_of_lt hlt)
        unfold countBelow at hmono
        have e1 : (if decide (e.2 < ((du : ℚ) : WithTop ℚ)) = true then 1 else 0) = 0 := by
          simp [hna]
        have e2 : (if decide (e.2 < ((dv : ℚ) : WithTop ℚ)) = true then 1 else 0) = 1 := by
          simp [hyb]
        rw [e1, e2]
        omega
      · have hih := ih h1
        by_cases h2 : e.2 < ((du : ℚ) : WithTop ℚ)
        · have h3 : e.2 < ((dv : ℚ) : WithTop ℚ) :=
            lt_of_lt_of_le h2 (by exact_mod_cast le_of_lt hlt)
          simp only [h2, h3, decide_eq_true_eq, if_pos]
          omega
        · have h3 : (if decide (e.2 < ((du : ℚ) : WithTop ℚ)) = true then 1 else 0) = 0 := by
            simp [h2]
          rw [h3]
          omega

theorem walk_head {g : Graph} {p : List Node} {a b : Node} {w : ℚ}
    (h : IsWalk g p a b w) : p.head? = some a := by
  cases h with
  | single => rfl
  | step he hs => rfl

theorem reconstructLoop_walk (g : Graph) (s : Node) (dist : List (Node × WithTop ℚ))
    (pred : List (Node × Option Node)) (vis : List Node)
    (hpos : PosWeights g) (hcore : CoreInv g s dist pred vis) :
    ∀ (n fuel : ℕ) (v : Node) (dv : ℚ) (acc : List Node),
      findV dist v = some ((dv : ℚ) : WithTop ℚ) →
      countBelow dist dv < n → n ≤ fuel →
      ∃ chain, reconstructLoop pred fuel (some v) acc = some (chain ++ v :: acc) ∧
        IsWalk g (chain ++ [v]) s v dv := by
  intro n
  induction n with
  | zero =>
      intro fuel v dv acc _ h2 _
      omega
  | succ m ih =>
      intro fuel v dv acc hv hcount hfuel
      obtain ⟨f2, hf2⟩ : ∃ f2, fuel = f2 + 1 := ⟨fuel - 1, by omega⟩
      subst hf2
      by_cases hvs : v = s
      · rw [hvs] at hv ⊢
        have hpred : jsOrNull (findV pred s) = none := by
          cases hp : findV pred s with
          | none => rfl
          | some o =>
              cases o with
              | none => rfl
              | some u => exact absurd hp (hcore.pred_src u)
        rw [reconstructLoop_succ, hpred, reconstructLoop_none]
        have hdv : dv = 0 := by
          have h1 := hcore.src_dist
          rw [h1] at hv
          have h2 := Option.some.inj hv
          exact_mod_cast h2.symm
        refine ⟨[], by simp, ?_⟩
        rw [hdv]
        simpa using IsWalk.single s
      · rcases hcore.pred_fin v dv hv hvs with ⟨u, hu⟩
        rcases hcore.pred_ok v u hu with ⟨w, q, du, hE, hq, hdu, hqd, _⟩
        have hqdv : q = dv := findV_coe_inj hq hv
        rw [hqdv] at hqd
        have hw : 0 < w := hpos.edge hE
        have hdu_lt : du < dv := by linarith
        have hcb : countBelow dist du < countBelow dist dv :=
          countBelow_strict dist u du dv (findV_mem hdu) hdu_lt
        rcases ih f2 u du (v :: acc) hdu (by omega) (by omega) with ⟨chain2, hrec, hwalk⟩
        refine ⟨chain2 ++ [u], ?_, ?_⟩
        · rw [reconstructLoop_succ, hu]
          have hjs : jsOrNull (some (some u)) = some u := rfl
          rw [hjs, hrec]
          simp
        · have h5 := hwalk.append_edge hE
          rw [← hqd] at h5
          simpa using h5

theorem dijkstra_correct (g : Graph) (s t : Node) (hpos : PosWeights g) (hst : s ≠ t) :
    ((∃ w, Reach g s t w) →
      ∃ (dt : ℚ) (path : List Node),
        dijkstra false g s t = (path, ((dt : ℚ) : WithTop ℚ)) ∧
        IsShortest g s t dt ∧ IsWalk g path s t dt) ∧
    ((∀ w, ¬ Reach g s t w) → dijkstra false g s t = ([], ⊤)) := by
  obtain ⟨fin, hdl, hcore, hdisj⟩ := dloop_init g s t hpos hst
  have hd : dijkstra false g s t =
      (match reconstructLoop fin.pred (fin.dist.length + 1) (some t) [] with
       | none => ([], ⊤)
       | some path =>
           if path.head? = some s then (path, jsOrInfinity (findV fin.dist t))
           else ([], ⊤)) := by
    unfold dijkstra
    rw [if_neg (by simp)]
    rw [hdl]
  constructor
  · intro hreach
    rcases hdisj with ⟨dt, hdt, hshort⟩ | ⟨hpq, hinv2⟩
    · have hn : countBelow fin.dist dt + 1 ≤ fin.dist.length + 1 := by
        have h1 := countBelow_le_length fin.dist dt
        omega
      rcases reconstructLoop_walk g s fin.dist fin.pred fin.visited hpos hcore
        (countBelow fin.dist dt + 1) (fin.dist.length + 1) t dt [] hdt (by omega) hn
        with ⟨chain, hrec, hwalk⟩
      have hdt_pos : 0 < dt := by
        rcases hshort.1 with ⟨wl, hwl⟩
        exact hwl.weight_pos hpos hst
      have hjs : jsOrInfinity (findV fin.dist t) = ((dt : ℚ) : WithTop ℚ) := by
        rw [hdt]
        have hne0 : ((dt : ℚ) : WithTop ℚ) ≠ 0 := by
          intro h
          have : dt = 0 := by exact_mod_cast h
          linarith
        simp [jsOrInfinity, hne0]
      refine ⟨dt, chain ++ [t], ?_, hshort, hwalk⟩
      rw [hd, hrec]
      have hhead : (chain ++ [t]).head? = some s := walk_head hwalk
      simp only [hhead, if_pos]
      rw [hjs]
    · exact absurd hreach (by
        rintro ⟨w, hw⟩
        exact exhausted_unreachable g s t fin hinv2 hpq w hw)
  · intro hunreach
    rcases hdisj with ⟨dt, hdt, hshort⟩ | ⟨hpq, hinv2⟩
    · exact absurd hshort.1 (hunreach dt)
    · have hpredt : jsOrNull (findV fin.pred t) = none := by
        cases hp : findV fin.pred t with
        | none => rfl
        | some o =>
            cases o with
            | none => rfl
            | some u =>
                rcases hcore.pred_ok t u hp with ⟨w, q, du, _, hq, _, _, _⟩
                rcases hcore.dshape t _ hq with h1 | ⟨h1, _⟩ | ⟨q2, h1, _, hr⟩
                · exact absurd h1 (by exact_mod_cast WithTop.coe_ne_top)
                · exact absurd h1 hst.symm
                · exact absurd hr (hunreach q2)
      have hrec : reconstructLoop fin.pred (fin.dist.length + 1) (some t) [] =
          some [t] := by
        rw [reconstructLoop_succ, hpredt, reconstructLoop_none]
      have hdtop : jsOrInfinity (findV fin.dist t) = ⊤ := by
        cases hft : findV fin.dist t with
        | none => rfl
        | some d =>
            rcases hcore.dshape t d hft with h1 | ⟨h1, _⟩ | ⟨q2, h1, _, hr⟩
            · rw [h1]
              simp [jsOrInfinity]
            · exact absurd h1 hst.symm
            · exact absurd hr (hunreach q2)
      rw [hd, hrec]
      have hne : ¬ (([t] : List Node).head? = some s) := by
        simp
        exact fun h => hst h.symm
      show (if ([t] : List Node).head? = some s
          then (([t] : List Node), jsOrInfinity (findV fin.dist t))
          else ([], ⊤)) = ([], ⊤)
      rw [if_neg hne]

/-- C1, counterexample to the original claim. The claim asserts that on
graphs with non-negative weights containing source and target, dijkstra
returns the shortest-path distance, in particular 0 when target equals
source. Both parts fail on concrete inputs: (a) on a two-node unit-weight
graph whose keys include the query point, querying source = target returns
distance Infinity, not 0, because the returned expression
distances.get(target) || Infinity coerces the stored 0 to Infinity; (b) on
a two-node graph with zero-weight edges (non-negative, as the claim
allows), the target is reachable at total weight 0, yet the query returns
Infinity, because the relaxation comparison newDist <
(distances.get(neighbor) || Infinity) treats the stored 0 as Infinity as
well. -/
theorem dijkstra_shortest_cex :
    (((0 : ℚ), (0 : ℚ)) : Node) ∈ cexG.map Prod.fst ∧
    (dijkstra false cexG ((0 : ℚ), (0 : ℚ)) ((0 : ℚ), (0 : ℚ))).2 = ⊤ ∧
    (∀ e ∈ cexGZ, ∀ tw ∈ e.2, 0 ≤ tw.weight) ∧
    Reach cexGZ ((0 : ℚ), (0 : ℚ)) ((1 : ℚ), (0 : ℚ)) 0 ∧
    (dijkstra false cexGZ ((0 : ℚ), (0 : ℚ)) ((1 : ℚ), (0 : ℚ))).2 = ⊤ := by
  refine ⟨by decide, by decide, by decide, ?_, by decide⟩
  have he : (⟨((1 : ℚ), (0 : ℚ)), 0⟩ : Edge) ∈ edgesOf cexGZ ((0 : ℚ), (0 : ℚ)) := by
    decide
  have hw := IsWalk.step he (IsWalk.single ((1 : ℚ), (0 : ℚ)))
  exact ⟨_, by simpa using hw⟩

/-- C1, amended. For a graph whose stored edge weights are all strictly
positive and a query with source distinct from target, dijkstra is
correct: when target is reachable it returns a vertex sequence from source
to target together with the graph-theoretic shortest-path distance, and
the sequence is a walk realizing exactly that distance; when target is
unreachable it returns the empty path and distance Infinity. The two
provisos are necessary: with zero-weight edges or source = target the
result is wrong, by the counterexample. -/
theorem dijkstra_shortest_amended (g : Graph) (s t : Node)
    (hpos : PosWeights g) (hst : s ≠ t) :
    ((∃ w, Reach g s t w) →
      ∃ (dt : ℚ) (path : List Node),
        dijkstra false g s t = (path, ((dt : ℚ) : WithTop ℚ)) ∧
        IsShortest g s t dt ∧ IsWalk g path s t dt) ∧
    ((∀ w, ¬ Reach g s t w) → dijkstra false g s t = ([], ⊤)) :=
  dijkstra_correct g s t hpos hst

/-- C1 witness: the amended theorem instantiated on the concrete two-node
unit-weight graph, where the target is reachable. -/
theorem dijkstra_shortest_amended_witness :
    PosWeights cexG ∧ (((0 : ℚ), (0 : ℚ)) : Node) ≠ ((1 : ℚ), (0 : ℚ)) ∧
    (∃ (dt : ℚ) (path : List Node),
      dijkstra false cexG ((0 : ℚ), (0 : ℚ)) ((1 : ℚ), (0 : ℚ)) =
        (path, ((dt : ℚ) : WithTop ℚ)) ∧
      IsShortest cexG ((0 : ℚ), (0 : ℚ)) ((1 : ℚ), (0 : ℚ)) dt ∧
      IsWalk cexG path ((0 : ℚ), (0 : ℚ)) ((1 : ℚ), (0 : ℚ)) dt) := by
  have hpos : PosWeights cexG := by
    unfold PosWeights
    decide
  refine ⟨hpos, by decide, ?_⟩
  refine (dijkstra_shortest_amended cexG ((0 : ℚ), (0 : ℚ)) ((1 : ℚ), (0 : ℚ)) hpos
    (by decide)).1 ?_
  have he : (⟨((1 : ℚ), (0 : ℚ)), 1⟩ : Edge) ∈ edgesOf cexG ((0 : ℚ), (0 : ℚ)) := by
    decide
  have hw := IsWalk.step he (IsWalk.single ((1 : ℚ), (0 : ℚ)))
  exact ⟨_, ⟨_, by simpa using hw⟩⟩

/-- C10: when the start and end query coordinates map to the same node
key, dijkstra reports distance Infinity (the stored 0 at the source is
coerced by the trailing || Infinity), so findShortestPath on identical
start and end points never succeeds: when the query-time timeout poll and
the too-far flag are both off it returns exactly the NoPath failure with
the degenerate straight-line fallback and the geodesic distance, and in
every case the success flag is false — never a success with distance 0. -/
theorem findShortestPath_same_point (pf : PF) (dist : Coord → Coord → ℚ)
    (calib : Coord → Coord → Line → Except Unit ℚ) (oracle : ℕ → Bool) (pc : ℕ)
    (start : Coord) :
    (findShortestPath pf dist calib oracle pc start start).success = false ∧
    (oracle pc = false → pf.isTooFarFromRivers = false →
      findShortestPath pf dist calib oracle pc start start =
        ⟨[start, start], dist start start, false, some .NoPath⟩) ∧
    (∀ g : Graph, (dijkstra false g (coordToKey start) (coordToKey start)).2 = ⊤) := by
  have hds : ∀ g : Graph, dijkstra false g (coordToKey start) (coordToKey start) =
      ([coordToKey start], ⊤) := fun g => dijkstra_self g (coordToKey start)
  refine ⟨?_, ?_, fun g => by rw [hds g]⟩
  · unfold findShortestPath findShortestPathBody
    cases h1 : oracle pc with
    | true => simp
    | false =>
        simp only [Bool.false_eq_true, if_false]
        cases h2 : pf.isTooFarFromRivers with
        | true => simp
        | false =>
            simp only [Bool.false_eq_true, if_false]
            rw [hds pf.network]
            simp
  · intro h1 h2
    unfold findShortestPath findShortestPathBody
    rw [h1, h2]
    simp only [Bool.false_eq_true, if_false]
    rw [hds pf.network]
    simp

/-- C5: the public entry point never lets an exception escape — for every
input, when the body of the try block raises, findShortestPath returns the
Unknown failure record carrying the straight-line fallback path and the
geodesic start-end distance, and when the body returns normally its result
is passed through unchanged; in both cases a result value is returned. -/
theorem findShortestPath_catches (pf : PF) (dist : Coord → Coord → ℚ)
    (calib : Coord → Coord → Line → Except Unit ℚ) (oracle : ℕ → Bool) (pc : ℕ)
    (start stop : Coord) :
    (∀ e : Unit,
      findShortestPathBody pf dist calib oracle pc start stop = Except.error e →
      findShortestPath pf dist calib oracle pc start stop =
        ⟨[start, stop], dist start stop, false, some .Unknown⟩) ∧
    (∀ r : PathResult,
      findShortestPathBody pf dist calib oracle pc start stop = Except.ok r →
      findShortestPath pf dist calib oracle pc start stop = r) := by
  constructor
  · intro e h
    unfold findShortestPath
    rw [h]
  · intro r h
    unfold findShortestPath
    rw [h]

theorem fsp_no_timeout_no_timedOut (pf : PF) (dist : Coord → Coord → ℚ)
    (calib : Coord → Coord → Line → Except Unit ℚ) (oracle : ℕ → Bool) (pc : ℕ)
    (start stop : Coord) (h1 : oracle pc = false) :
    (findShortestPath pf dist calib oracle pc start stop).error ≠
      some PathErrorKind.TimedOut := by
  unfold findShortestPath findShortestPathBody
  rw [h1]
  simp only [Bool.false_eq_true, if_false]
  cases h2 : pf.isTooFarFromRivers with
  | true => simp
  | false =>
      simp only [Bool.false_eq_true, if_false]
      by_cases hr : (dijkstra false pf.network (coordToKey start) (coordToKey stop)).2 = ⊤
      · rw [if_pos hr]
        simp
      · rw [if_neg hr]
        cases hls : lineStringE (dijkstra false pf.network (coordToKey start)
            (coordToKey stop)).1 with
        | error e => simp
        | ok lsp =>
            cases hc : calib start stop lsp with
            | error e => simp [hc]
            | ok td => simp [hc]

/-- C4, amended. The TimedOut classification is decided by the query-time
timeout check, not by whether network construction timed out:
findShortestPath returns the TimedOut failure record (straight-line
geometry and geodesic start-end distance) exactly when its own entry
timeout poll fires, and this is evaluated before the TooFarFromRivers and
NoPath classifications, for every finder state.  Under a monotone clock
(once timed out, always timed out) a timeout that fired at or before
construction completion implies the query poll fires too, so construction
timeout still implies the TimedOut result; the converse fails, as the
counterexample shows. -/
theorem findShortestPath_timedOut_amended (pf : PF) (dist : Coord → Coord → ℚ)
    (calib : Coord → Coord → Line → Except Unit ℚ) (oracle : ℕ → Bool) (pc : ℕ)
    (start stop : Coord) :
    (findShortestPath pf dist calib oracle pc start stop =
        ⟨[start, stop], dist start stop, false, some .TimedOut⟩ ↔
      oracle pc = true) ∧
    ((∀ i j : ℕ, i ≤ j → oracle i = true → oracle j = true) →
      ∀ k, k ≤ pc → oracle k = true →
      findShortestPath pf dist calib oracle pc start stop =
        ⟨[start, stop], dist start stop, false, some .TimedOut⟩) := by
  have hback : oracle pc = true →
      findShortestPath pf dist calib oracle pc start stop =
        ⟨[start, stop], dist start stop, false, some .TimedOut⟩ := by
    intro h
    unfold findShortestPath findShortestPathBody
    rw [h]
    simp
  constructor
  · constructor
    · intro h
      cases ho : oracle pc with
      | true => rfl
      | false =>
          have hne := fsp_no_timeout_no_timedOut pf dist calib oracle pc start stop ho
          rw [h] at hne
          simp at hne
    · exact hback
  · intro hmono k hk hok
    exact hback (hmono k pc hk hok)

theorem processLine_inv (npl : Line → Coord → Coord) (dist : Coord → Coord → ℚ)
    (start stop : Coord) (L : List Line) (acc : PointInfo × PointInfo × List Line)
    (l : Line) (hl : l ∈ L) (hinv : ClosestInv npl dist start stop L acc) :
    ClosestInv npl dist start stop L (processLine npl dist start stop acc l) := by
  unfold processLine ClosestInv
  constructor
  · by_cases h1 : ((dist (npl l start) start : ℚ) : WithTop ℚ) < acc.1.closestLineDistance
    · simp only [if_pos h1]
      exact Or.inr ⟨l, hl, rfl⟩
    · simp only [if_neg h1]
      exact hinv.1
  · by_cases h2 : ((dist (npl l stop) stop : ℚ) : WithTop ℚ) < acc.2.1.closestLineDistance
    · simp only [if_pos h2]
      exact Or.inr ⟨l, hl, rfl⟩
    · simp only [if_neg h2]
      exact hinv.2

theorem foldl_processLine_inv (npl : Line → Coord → Coord) (dist : Coord → Coord → ℚ)
    (start stop : Coord) (L : List Line) :
    ∀ (ls : List Line) (acc : PointInfo × PointInfo × List Line),
      (∀ l ∈ ls, l ∈ L) → ClosestInv npl dist start stop L acc →
      ClosestInv npl dist start stop L (ls.foldl (processLine npl dist start stop) acc) := by
  intro ls
  induction ls with
  | nil => intro acc _ hinv; exact hinv
  | cons l ls2 ih =>
      intro acc hmem hinv
      rw [List.foldl_cons]
      exact ih _ (fun x hx => hmem x (by simp [hx]))
        (processLine_inv npl dist start stop L acc l (hmem l (by simp)) hinv)

theorem processFeats_inv (npl : Line → Coord → Coord) (dist : Coord → Coord → ℚ)
    (start stop : Coord) (oracle : ℕ → Bool) (L : List Line) :
    ∀ (fs : List Feat) (acc : PointInfo × PointInfo × List Line) (pc : ℕ),
      (∀ f ∈ fs, ∀ l ∈ featLines f, l ∈ L) →
      ClosestInv npl dist start stop L acc →
      ClosestInv npl dist start stop L
        (processFeats npl dist start stop oracle fs acc pc).1 := by
  intro fs
  induction fs with
  | nil => intro acc pc _ hinv; exact hinv
  | cons f fs2 ih =>
      intro acc pc hmem hinv
      unfold processFeats
      by_cases ho : oracle pc = true
      · rw [if_pos ho]
        exact ih _ _ (fun x hx => hmem x (by simp [hx])) hinv
      · rw [if_neg ho]
        refine ih _ _ (fun x hx => hmem x (by simp [hx])) ?_
        exact foldl_processLine_inv npl dist start stop L (featLines f) acc
          (hmem f (by simp)) hinv

theorem mem_flatFeats {fs : List Feat} {f : Feat} (hf : f ∈ fs) {l : Line}
    (hl : l ∈ featLines f) : l ∈ flatFeats fs := by
  induction fs with
  | nil => simp at hf
  | cons f0 fs2 ih =>
      have hsplit : flatFeats (f0 :: fs2) = featLines f0 ++ flatFeats fs2 := rfl
      rw [hsplit]
      rcases List.mem_cons.mp hf with h1 | h1
      · exact List.mem_append_left _ (h1 ▸ hl)
      · exact List.mem_append_right _ (ih h1)

/-- C2, amended. When the start point (or the end point) is strictly
farther than the allowed distance 40 from every candidate polyline, the
constructor sets the too-far flag and builds no graph (the network is the
empty map), regardless of the network topology and of any construction
timeout; a subsequent findShortestPath whose own entry timeout poll does
not fire then returns the TooFarFromRivers failure with the straight-line
two-point path and the geodesic start-end distance.  The proviso on the
query poll is needed because the TimedOut classification is evaluated
first. -/
theorem findShortestPath_tooFar_amended (npl : Line → Coord → Coord)
    (dist : Coord → Coord → ℚ) (li : Line → Line → List Coord)
    (pld : Coord → Coord → Coord → ℚ) (calib : Coord → Coord → Line → Except Unit ℚ)
    (oracle : ℕ → Bool) (feats : List Feat) (start stop : Coord)
    (hfar : (∀ l ∈ flatFeats feats, 40 < dist (npl l start) start) ∨
            (∀ l ∈ flatFeats feats, 40 < dist (npl l stop) stop)) :
    (mkPathFinder npl dist li pld oracle feats start stop).1 = ⟨[], true⟩ ∧
    (∀ pc2 : ℕ, oracle pc2 = false →
      findShortestPath (mkPathFinder npl dist li pld oracle feats start stop).1
          dist calib oracle pc2 start stop =
        ⟨[start, stop], dist start stop, false, some .TooFarFromRivers⟩) := by
  have hinv := processFeats_inv npl dist start stop oracle (flatFeats feats) feats
    (initInfo, initInfo, []) 0
    (fun f hf l hl => mem_flatFeats hf hl)
    ⟨Or.inl rfl, Or.inl rfl⟩
  have hcond : (40 : WithTop ℚ) <
      ((processFeats npl dist start stop oracle feats (initInfo, initInfo, []) 0).1).1.closestLineDistance ∨
      (40 : WithTop ℚ) <
      ((processFeats npl dist start stop oracle feats (initInfo, initInfo, []) 0).1).2.1.closestLineDistance := by
    have h40 : ((40 : ℚ) : WithTop ℚ) = (40 : WithTop ℚ) := by norm_cast
    rcases hfar with hf | hf
    · left
      rcases hinv.1 with h1 | ⟨l, hl, h1⟩
      · rw [h1, ← h40]
        exact WithTop.coe_lt_top 40
      · rw [h1, ← h40]
        exact_mod_cast hf l hl
    · right
      rcases hinv.2 with h1 | ⟨l, hl, h1⟩
      · rw [h1, ← h40]
        exact WithTop.coe_lt_top 40
      · rw [h1, ← h40]
        exact_mod_cast hf l hl
  have hmk : (mkPathFinder npl dist li pld oracle feats start stop).1 = ⟨[], true⟩ := by
    unfold mkPathFinder
    rw [if_pos hcond]
  refine ⟨hmk, ?_⟩
  intro pc2 ho
  rw [hmk]
  unfold findShortestPath findShortestPathBody
  rw [ho]
  simp

/-- C2, counterexample to the original claim. On a concrete input whose
only candidate line is farther than 40 from both query points (so the
original claim promises a TooFarFromRivers failure), a clock that has
already run out makes findShortestPath return the TimedOut failure
instead: the query-time timeout check precedes the too-far check.  The
constructor half of the claim does hold (the too-far flag is set and the
network is empty). -/
theorem findShortestPath_tooFar_cex :
    (∀ l ∈ flatFeats farFeats,
      40 < taxiDist (nplHead l ((0 : ℚ), (0 : ℚ))) ((0 : ℚ), (0 : ℚ))) ∧
    (mkPathFinder nplHead taxiDist noInter taxiPld (fun _ => true) farFeats
        ((0 : ℚ), (0 : ℚ)) ((1 : ℚ), (0 : ℚ))).1 = ⟨[], true⟩ ∧
    (findShortestPath
        (mkPathFinder nplHead taxiDist noInter taxiPld (fun _ => true) farFeats
          ((0 : ℚ), (0 : ℚ)) ((1 : ℚ), (0 : ℚ))).1
        taxiDist calibOK (fun _ => true)
        (mkPathFinder nplHead taxiDist noInter taxiPld (fun _ => true) farFeats
          ((0 : ℚ), (0 : ℚ)) ((1 : ℚ), (0 : ℚ))).2
        ((0 : ℚ), (0 : ℚ)) ((1 : ℚ), (0 : ℚ))).error =
      some PathErrorKind.TimedOut := by
  refine ⟨by decide, by decide, by decide⟩

/-- C2 witness: the amended theorem instantiated on the far input with a
clock that never runs out. -/
theorem findShortestPath_tooFar_amended_witness :
    (∀ l ∈ flatFeats farFeats,
      40 < taxiDist (nplHead l ((0 : ℚ), (0 : ℚ))) ((0 : ℚ), (0 : ℚ))) ∧
    (mkPathFinder nplHead taxiDist noInter taxiPld (fun _ => false) farFeats
        ((0 : ℚ), (0 : ℚ)) ((1 : ℚ), (0 : ℚ))).1 = ⟨[], true⟩ ∧
    findShortestPath
        (mkPathFinder nplHead taxiDist noInter taxiPld (fun _ => false) farFeats
          ((0 : ℚ), (0 : ℚ)) ((1 : ℚ), (0 : ℚ))).1
        taxiDist calibOK (fun _ => false) 7
        ((0 : ℚ), (0 : ℚ)) ((1 : ℚ), (0 : ℚ)) =
      ⟨[((0 : ℚ), (0 : ℚ)), ((1 : ℚ), (0 : ℚ))],
        taxiDist ((0 : ℚ), (0 : ℚ)) ((1 : ℚ), (0 : ℚ)), false,
        some PathErrorKind.TooFarFromRivers⟩ := by
  have hfar : ∀ l ∈ flatFeats farFeats,
      40 < taxiDist (nplHead l ((0 : ℚ), (0 : ℚ))) ((0 : ℚ), (0 : ℚ)) := by decide
  have h := findShortestPath_tooFar_amended nplHead taxiDist noInter taxiPld calibOK
    (fun _ => false) farFeats ((0 : ℚ), (0 : ℚ)) ((1 : ℚ), (0 : ℚ)) (Or.inl hfar)
  exact ⟨hfar, h.1, h.2 7 rfl⟩

/-- C4, counterexample to the original claim. A concrete run in which
network construction does not time out (every poll the constructor makes
returns false, as the first conjunct states for every index below the
final poll count) and a non-empty network is built, yet findShortestPath
returns the TimedOut failure because the clock runs out between
construction and the query: the classification reflects the query-time
check, not construction timeout, so the claimed equivalence fails. -/
theorem findShortestPath_timedOut_cex :
    (∀ k < (mkPathFinder nplSelf taxiDist noInter taxiPld orc5 nearFeats
        ((0 : ℚ), (0 : ℚ)) ((1 : ℚ), (0 : ℚ))).2, orc5 k = false) ∧
    (mkPathFinder nplSelf taxiDist noInter taxiPld orc5 nearFeats
        ((0 : ℚ), (0 : ℚ)) ((1 : ℚ), (0 : ℚ))).1.network ≠ [] ∧
    (findShortestPath
        (mkPathFinder nplSelf taxiDist noInter taxiPld orc5 nearFeats
          ((0 : ℚ), (0 : ℚ)) ((1 : ℚ), (0 : ℚ))).1
        taxiDist calibOK orc5
        (mkPathFinder nplSelf taxiDist noInter taxiPld orc5 nearFeats
          ((0 : ℚ), (0 : ℚ)) ((1 : ℚ), (0 : ℚ))).2
        ((0 : ℚ), (0 : ℚ)) ((1 : ℚ), (0 : ℚ))).error =
      some PathErrorKind.TimedOut := by
  refine ⟨by decide, by decide, by decide⟩

/-- C4 witness: the amended theorem instantiated with an exhausted clock —
the iff produces the TimedOut record, and so does the monotone-clock
clause applied to an earlier firing index. -/
theorem findShortestPath_timedOut_amended_witness :
    findShortestPath pfCex taxiDist calibOK (fun _ => true) 3
        ((0 : ℚ), (0 : ℚ)) ((1 : ℚ), (0 : ℚ)) =
      ⟨[((0 : ℚ), (0 : ℚ)), ((1 : ℚ), (0 : ℚ))],
        taxiDist ((0 : ℚ), (0 : ℚ)) ((1 : ℚ), (0 : ℚ)), false,
        some PathErrorKind.TimedOut⟩ ∧
    ((∀ i j : ℕ, i ≤ j → (fun _ : ℕ => true) i = true → (fun _ : ℕ => true) j = true) ∧
      0 ≤ 3 ∧ (fun _ : ℕ => true) 0 = true) := by
  refine ⟨?_, ⟨fun i j _ h => h, by omega, rfl⟩⟩
  exact (findShortestPath_timedOut_amended pfCex taxiDist calibOK (fun _ => true) 3
    ((0 : ℚ), (0 : ℚ)) ((1 : ℚ), (0 : ℚ))).2 (fun i j _ h => h) 0 (by omega) rfl

/-- C5 witness: on the two-node network with a throwing
distance-along-river resolver, the body raises and the entry point
converts the exception into the Unknown failure record. -/
theorem findShortestPath_catches_witness :
    findShortestPathBody pfCex taxiDist calibErr (fun _ => false) 0
        ((0 : ℚ), (0 : ℚ)) ((1 : ℚ), (0 : ℚ)) = Except.error () ∧
    findShortestPath pfCex taxiDist calibErr (fun _ => false) 0
        ((0 : ℚ), (0 : ℚ)) ((1 : ℚ), (0 : ℚ)) =
      ⟨[((0 : ℚ), (0 : ℚ)), ((1 : ℚ), (0 : ℚ))],
        taxiDist ((0 : ℚ), (0 : ℚ)) ((1 : ℚ), (0 : ℚ)), false,
        some PathErrorKind.Unknown⟩ :=
  ⟨by rfl,
   (findShortestPath_catches pfCex taxiDist calibErr (fun _ => false) 0
     ((0 : ℚ), (0 : ℚ)) ((1 : ℚ), (0 : ℚ))).1 () (by rfl)⟩

/-- C10 witness: the same-point theorem instantiated on a concrete finder
state with the clock and the too-far flag both off. -/
theorem findShortestPath_same_point_witness :
    (findShortestPath pfCex taxiDist calibOK (fun _ => false) 0
        ((0 : ℚ), (0 : ℚ)) ((0 : ℚ), (0 : ℚ))).success = false ∧
    findShortestPath pfCex taxiDist calibOK (fun _ => false) 0
        ((0 : ℚ), (0 : ℚ)) ((0 : ℚ), (0 : ℚ)) =
      ⟨[((0 : ℚ), (0 : ℚ)), ((0 : ℚ), (0 : ℚ))],
        taxiDist ((0 : ℚ), (0 : ℚ)) ((0 : ℚ), (0 : ℚ)), false,
        some PathErrorKind.NoPath⟩ ∧
    (dijkstra false cexG (coordToKey ((0 : ℚ), (0 : ℚ)))
        (coordToKey ((0 : ℚ), (0 : ℚ)))).2 = ⊤ := by
  obtain ⟨h1, h2, h3⟩ := findShortestPath_same_point pfCex taxiDist calibOK
    (fun _ => false) 0 ((0 : ℚ), (0 : ℚ))
  exact ⟨h1, h2 rfl rfl, h3 cexG⟩

/-- C9 witness: the specification instantiated on a degenerate two-vertex
line (failure) and on the concrete two-vertex line with an inserted
endpoint (success with the splice decomposition). -/
theorem insertPoint_spec_witness :
    insertPointIntoLineString taxiPld [((0 : ℚ), (0 : ℚ)), ((0 : ℚ), (0 : ℚ))]
      ((5 : ℚ), (5 : ℚ)) = (none, false) ∧
    (∃ i, i + 1 < presentLine.length ∧
      [((0 : ℚ), (0 : ℚ)), ((0 : ℚ), (0 : ℚ)), ((1 : ℚ), (0 : ℚ))] =
        presentLine.take (i + 1) ++ ((0 : ℚ), (0 : ℚ)) :: presentLine.drop (i + 1) ∧
      presentLine.getD i c0 ≠ presentLine.getD (i + 1) c0 ∧
      (∀ j, j + 1 < presentLine.length →
        presentLine.getD j c0 ≠ presentLine.getD (j + 1) c0 →
        taxiPld ((0 : ℚ), (0 : ℚ)) (presentLine.getD i c0) (presentLine.getD (i + 1) c0) ≤
          taxiPld ((0 : ℚ), (0 : ℚ)) (presentLine.getD j c0) (presentLine.getD (j + 1) c0)) ∧
      (∀ j, j < i → presentLine.getD j c0 ≠ presentLine.getD (j + 1) c0 →
        taxiPld ((0 : ℚ), (0 : ℚ)) (presentLine.getD i c0) (presentLine.getD (i + 1) c0) <
          taxiPld ((0 : ℚ), (0 : ℚ)) (presentLine.getD j c0) (presentLine.getD (j + 1) c0))) :=
  ⟨(insertPoint_spec taxiPld [((0 : ℚ), (0 : ℚ)), ((0 : ℚ), (0 : ℚ))]
      ((5 : ℚ), (5 : ℚ))).1.mpr (by
        intro i hi
        have h0 : i = 0 := by
          simp only [List.length_cons, List.length_nil] at hi
          omega
        subst h0
        decide),
   (insertPoint_spec taxiPld presentLine ((0 : ℚ), (0 : ℚ))).2.2
     [((0 : ℚ), (0 : ℚ)), ((0 : ℚ), (0 : ℚ)), ((1 : ℚ), (0 : ℚ))] (by decide)⟩

/-- C6 witness: the amended statement instantiated with the taxicab
geometry on the concrete two-vertex line and an already-present vertex. -/
theorem insertPoint_present_amended_witness :
    ∃ l', insertPointIntoLineString taxiPld presentLine ((0 : ℚ), (0 : ℚ)) =
        (some l', true) ∧
      l'.length = presentLine.length + 1 ∧
      totalLength taxiDist l' = totalLength taxiDist presentLine :=
  insertPoint_present_amended taxiPld taxiDist taxiPld_nonneg taxiPld_zero_add
    taxiPld_left taxiPld_right presentLine ((0 : ℚ), (0 : ℚ)) (by decide)
    ⟨0, by decide, by decide⟩

/-- C7 witness: the amended statement instantiated on the two-line list
with distinct consecutive vertices, at the key and weight of the
counterexample — the built network stores no self-loop there. -/
theorem buildNetwork_no_self_loop_amended_witness :
    (⟨((0 : ℚ), (0 : ℚ)), (1 : ℚ)⟩ : Edge) ∉
      edgesOf (buildNetwork noInter taxiPld taxiDist false (fun _ => false)
        wLines 0).1 ((0 : ℚ), (0 : ℚ)) := by
  refine buildNetwork_no_self_loop_amended noInter taxiPld taxiDist (fun _ => false)
    wLines 0 ?_ ((0 : ℚ), (0 : ℚ)) 1
  intro l hl i hi
  have hg : (getIntersections noInter taxiPld (fun _ => false) wLines 0).1 =
      [[((0 : ℚ), (0 : ℚ)), ((1 : ℚ), (0 : ℚ))],
       [((5 : ℚ), (7 : ℚ)), ((9 : ℚ), (7 : ℚ))]] := by decide
  rw [hg] at hl
  rcases List.mem_cons.mp hl with hl2 | hl2
  · subst hl2
    have hi0 : i = 0 := by
      simp only [List.length_cons, List.length_nil] at hi
      omega
    subst hi0
    decide
  · have hl3 : l = [((5 : ℚ), (7 : ℚ)), ((9 : ℚ), (7 : ℚ))] := by simpa using hl2
    subst hl3
    have hi0 : i = 0 := by
      simp only [List.length_cons, List.length_nil] at hi
      omega
    subst hi0
    decide

/-- C8 witness: the adjacency characterization instantiated with the
(symmetric) taxicab distance on the singleton line list. -/
theorem buildNetwork_adjacency_witness :
    (∀ l ∈ (getIntersections noInter taxiPld (fun _ => false) wLines 0).1,
      ∀ j, j + 1 < l.length →
        (⟨l.getD (j + 1) c0, taxiDist (l.getD j c0) (l.getD (j + 1) c0)⟩ : Edge) ∈
          edgesOf (buildNetwork noInter taxiPld taxiDist false (fun _ => false)
            wLines 0).1 (l.getD j c0) ∧
        (⟨l.getD j c0, taxiDist (l.getD j c0) (l.getD (j + 1) c0)⟩ : Edge) ∈
          edgesOf (buildNetwork noInter taxiPld taxiDist false (fun _ => false)
            wLines 0).1 (l.getD (j + 1) c0)) ∧
    (∀ k tw, tw ∈
        edgesOf (buildNetwork noInter taxiPld taxiDist false (fun _ => false)
          wLines 0).1 k →
      ∃ l ∈ (getIntersections noInter taxiPld (fun _ => false) wLines 0).1,
        (Adjacent l k tw.target ∨ Adjacent l tw.target k) ∧
          tw.weight = taxiDist k tw.target) := by
  refine buildNetwork_adjacency noInter taxiPld taxiDist wLines 0 ?_
  intro a b
  unfold taxiDist
  rw [rabs_eq_abs, rabs_eq_abs, rabs_eq_abs, rabs_eq_abs,
    abs_sub_comm a.1 b.1, abs_sub_comm a.2 b.2]
